import Mathlib

set_option linter.unusedSectionVars false
set_option linter.unusedVariables false
set_option maxRecDepth 100000

/-!
Verification of the bounded-parallel divide-and-conquer sorting engine of this
repository (hybrid 3-way quicksort, merge sort, threshold policy, worker-pool
gate, and the fork/join schedulers).

Go slices of int are modelled as `List Int` with functional update; in-place
mutation becomes explicit state passing.  `arr[i]` is `getE l i` (out-of-range
reads never occur under the stated preconditions), `arr[i] = v` is `setE`.
Go loops are modelled with an explicit fuel argument that is structurally
decreased; every top-level entry point supplies a fuel that provably suffices,
and every lemma about a fueled function carries the corresponding
fuel-sufficiency hypothesis.  Go int arithmetic is exact at these magnitudes,
so indices are Nat (with Int used where the source can produce a negative
intermediate value, such as the right end lt-1 of an empty partition zone).

The sequential sorters that the stability property of the spec applies to
keyed records are stated over an arbitrary element type with a key
projection; the repository functions on plain int slices are the instances
with the identity key.

The goroutine forks of the parallel schedulers operate on disjoint index
ranges of the shared array (proved below), so they are modelled by running the
two branches in sequence; the nondeterminism of the gate (whether a
non-blocking channel send succeeds under a given interleaving) is modelled by
an oracle of booleans threaded through the state: a try-acquire may succeed
only when occupancy is below capacity, and may always fail.
-/

namespace SABench

section Defs

variable {α : Type} [Inhabited α] [DecidableEq α]

/-- Read `arr[i]`: out-of-range reads return a default; they never occur under
the preconditions of the code paths modelled here. -/
def getE (l : List α) (i : Nat) : α := l.getD i default

/-- Write `arr[i] = v`. -/
def setE (l : List α) (i : Nat) (v : α) : List α := l.set i v

/-- The Go parallel assignment `arr[i], arr[j] = arr[j], arr[i]`. -/
def swapE (l : List α) (i j : Nat) : List α :=
  setE (setE l i (getE l j)) j (getE l i)

/-- The contiguous segment of `m` elements of `l` starting at index `s`
(clipped at the end of the list). -/
def segc (l : List α) (s m : Nat) : List α := (l.drop s).take m

/-- The closed-range segment `arr[low..high]`. -/
def seg (l : List α) (low high : Nat) : List α := segc l low (high + 1 - low)

/-- getOptimalThreshold from src/sort/prl_quicksort.go: the dynamic threshold
table.  The second argument (current subrange size) is ignored by the body. -/
def getOptimalThreshold (totalSize currentSize : Nat) : Nat :=
  if totalSize < 1000 then totalSize
  else if totalSize < 10000 then 300
  else if totalSize < 100000 then 800
  else 1500

/-- Keys are ascending along the list (the sortedness produced by the
sequential sorters, stated through a key projection). -/
def SortedK (κ : α → Int) (s : List α) : Prop :=
  s.Pairwise (fun a b => κ a ≤ κ b)

/-- Inner while loop of insertionSort from src/unnamed/part_000, generalized
over a key projection (the repository function is the identity-key instance):
shift elements right while strictly greater than the key, then place the key.
`j` is an Int because the loop leaves with `j = low - 1` when the key moves
to the front.  The fuel is the number of remaining loop iterations; callers
pass a sufficient amount. -/
def insShiftG (κ : α → Int) : Nat → List α → α → Nat → Int → List α
  | 0, l, kv, _low, j => setE l (j + 1).toNat kv
  | fuel + 1, l, kv, low, j =>
      if (low : Int) ≤ j ∧ κ kv < κ (getE l j.toNat) then
        insShiftG κ fuel (setE l (j.toNat + 1) (getE l j.toNat)) kv low (j - 1)
      else setE l (j + 1).toNat kv

/-- Outer for loop of insertionSort: insert arr[i] for i = low+1 .. high. -/
def insOuterG (κ : α → Int) : Nat → List α → Nat → Nat → Nat → List α
  | 0, l, _low, _i, _high => l
  | fuel + 1, l, low, i, high =>
      if i ≤ high then
        insOuterG κ fuel (insShiftG κ (i - low) l (getE l i) low ((i : Int) - 1)) low (i + 1) high
      else l

/-- insertionSort from src/unnamed/part_000 over a key projection: in-place
insertion sort of arr[low..high]. -/
def insertionSortG (κ : α → Int) (l : List α) (low high : Nat) : List α :=
  insOuterG κ (high - low) l low (low + 1) high

/-- Pure specification helper: insert an element in front of the first
strictly greater key (that is, after every element whose key is less than or
equal — the placement insertionSort's shifting loop realizes). -/
def insertBFG (κ : α → Int) (kv : α) : List α → List α
  | [] => [kv]
  | b :: t => if κ kv < κ b then kv :: b :: t else b :: insertBFG κ kv t

/-- Merge loop of merge from src/sort/mergesort.go over a key projection:
two cursors walk the inputs, preferring the left head on ties
(left[i] <= right[j] takes the left element); once one side is exhausted the
remainders are appended in bulk. -/
def mergeLoopG (κ : α → Int) : Nat → List α → List α → Nat → Nat → List α → List α
  | 0, left, right, i, j, acc => acc ++ left.drop i ++ right.drop j
  | fuel + 1, left, right, i, j, acc =>
      if i < left.length ∧ j < right.length then
        if κ (getE left i) ≤ κ (getE right j) then
          mergeLoopG κ fuel left right (i + 1) j (acc ++ [getE left i])
        else
          mergeLoopG κ fuel left right i (j + 1) (acc ++ [getE right j])
      else acc ++ left.drop i ++ right.drop j

/-- merge from src/sort/mergesort.go. -/
def mergeG (κ : α → Int) (left right : List α) : List α :=
  mergeLoopG κ (left.length + right.length) left right 0 0 []

/-- mergeSort from src/sort/mergesort.go over a key projection: identity for
sizes at most 1, a copy plus in-place insertion sort for sizes at most 16,
otherwise split at the midpoint, sort both halves and merge. -/
def mergeSortG (κ : α → Int) : Nat → List α → List α
  | 0, arr => arr
  | fuel + 1, arr =>
      if arr.length ≤ 1 then arr
      else if arr.length ≤ 16 then insertionSortG κ arr 0 (arr.length - 1)
      else
        mergeG κ (mergeSortG κ fuel (arr.take (arr.length / 2)))
          (mergeSortG κ fuel (arr.drop (arr.length / 2)))

/-- insertionSort from src/unnamed/part_000 on int slices: the identity-key
instance of the generic version. -/
def insertionSort (arr : List Int) (low high : Nat) : List Int :=
  insertionSortG (fun v : Int => v) arr low high

/-- One conditional ordering step of medianOfThree:
if arr[u] > arr[v] swap them. -/
def condSwap (arr : List Int) (u v : Nat) : List Int :=
  if getE arr v < getE arr u then swapE arr u v else arr

/-- medianOfThree from src/unnamed/part_000: order arr[a], arr[b], arr[c]
pairwise, then move the median (at b) to position a. -/
def medianOfThree (arr : List Int) (a b c : Nat) : List Int :=
  swapE (condSwap (condSwap (condSwap arr a b) b c) a b) a b

/-- 3-way partition loop of partition3Way from src/unnamed/part_000
(Dijkstra three-pointer scheme).  The fuel bounds the remaining iterations,
each of which shrinks gt - i by one. -/
def p3wLoop : Nat → List Int → Int → Nat → Nat → Nat → List Int × Nat × Nat
  | 0, arr, _pivot, lt, _i, gt => (arr, lt, gt)
  | fuel + 1, arr, pivot, lt, i, gt =>
      if i < gt then
        if getE arr i < pivot then
          p3wLoop fuel (swapE arr lt i) pivot (lt + 1) (i + 1) gt
        else if pivot < getE arr i then
          p3wLoop fuel (swapE arr i (gt - 1)) pivot lt i (gt - 1)
        else
          p3wLoop fuel arr pivot lt (i + 1) gt
      else (arr, lt, gt)

/-- partition3Way from src/unnamed/part_000: median-of-three pivot selection,
then a single-scan 3-way partition; returns the new contents and the bounds
lt, gt of the equal-to-pivot zone. -/
def partition3Way (arr : List Int) (low high : Nat) : List Int × Nat × Nat :=
  let l1 := medianOfThree arr low ((low + high) / 2) high
  let pivot := getE l1 low
  let r := p3wLoop (high - low) l1 pivot low (low + 1) (high + 1)
  (r.1, r.2.1, r.2.2 - 1)

/-- quickSortHelper from src/unnamed/part_000 with the size of the range as
fuel: hybrid quicksort of arr[low..high] with insertion-sort cutoff 16,
3-way partitioning, and the tail-elimination loop turned into a second
recursive call (recursing first into the smaller outer zone, as the source
does). -/
def qsHelperF : Nat → List Int → Nat → Nat → List Int
  | 0, arr, _low, _high => arr
  | fuel + 1, arr, low, high =>
      if low < high then
        if high - low + 1 ≤ 16 then insertionSort arr low high
        else
          let p := partition3Way arr low high
          if (p.2.1 : Int) - low < (high : Int) - p.2.2 then
            qsHelperF fuel (qsHelperF fuel p.1 low (p.2.1 - 1)) (p.2.2 + 1) high
          else
            qsHelperF fuel (qsHelperF fuel p.1 (p.2.2 + 1) high) low (p.2.1 - 1)
      else arr

/-- quickSortHelper entry: the range size is a sufficient fuel. -/
def quickSortHelper (arr : List Int) (low high : Nat) : List Int :=
  qsHelperF (high + 1 - low) arr low high

/-- quickSort from src/unnamed/part_000. -/
def quickSort (arr : List Int) : List Int :=
  if arr.length < 2 then arr else quickSortHelper arr 0 (arr.length - 1)

/-- arr[low..high] is in ascending order: for all i < j in the range,
result[i] <= result[j]. -/
def sortedRange (l : List Int) (low high : Nat) : Prop :=
  ∀ i j : Nat, low ≤ i → i < j → j ≤ high → getE l i ≤ getE l j

/-- Bundle for an in-place range sort: length preserved, frame outside
[low, high], whole-list permutation, and the range ascending. -/
def RangeSorts (arr res : List Int) (low high : Nat) : Prop :=
  res.length = arr.length ∧
  (∀ k : Nat, k < low ∨ high < k → getE res k = getE arr k) ∧
  res.Perm arr ∧
  sortedRange res low high

/-- mergeSort from src/sort/mergesort.go on int slices: the identity-key
instance with the length of the input as fuel. -/
def mergeSort (arr : List Int) : List Int :=
  mergeSortG (fun v : Int => v) arr.length arr

/-- merge from src/sort/mergesort.go on int slices. -/
def merge (left right : List Int) : List Int :=
  mergeG (fun v : Int => v) left right

/-- State of the Worker-Pool Gate of src/sort/prl_quicksort.go (the lazily
initialized buffered channel used as a counting semaphore): current
occupancy, fixed capacity (runtime.NumCPU at initWorkerPool), and an oracle
of scheduling decisions deciding each non-blocking channel send: under some
interleaving a send may fail even with room in the buffer (the select may
take the default branch), but it can succeed only when occupancy is below
capacity.  Quantifying over all oracles covers all interleavings. -/
structure GateSt where
  occ : Nat
  cap : Nat
  oracle : List Bool
deriving DecidableEq

/-- Observable events of a parallel sort run: the threshold computed by a
scheduler invocation (with the size it was computed against), each gate
acquisition attempt with the target zone in Go int index bounds, and each
release. -/
inductive Ev : Type
  | call : Nat → Nat → Ev
  | acqOk : Int → Int → Ev
  | acqFail : Int → Int → Ev
  | rel : Ev
deriving DecidableEq

/-- The non-blocking select on workerPool <- struct: returns whether the
slot was obtained, the new gate state, and the recorded attempt. -/
def tryAcquire (σ : GateSt) (lo hi : Int) : Bool × GateSt × Ev :=
  match σ.oracle with
  | [] => (false, σ, Ev.acqFail lo hi)
  | b :: rest =>
      if b = true ∧ σ.occ < σ.cap then
        (true, ⟨σ.occ + 1, σ.cap, rest⟩, Ev.acqOk lo hi)
      else (false, ⟨σ.occ, σ.cap, rest⟩, Ev.acqFail lo hi)

/-- The deferred <-workerPool returning a held slot. -/
def release (σ : GateSt) : GateSt := ⟨σ.occ - 1, σ.cap, σ.oracle⟩

/-- resetWorkerPool from src/sort/prl_mergesort.go: drain every held slot. -/
def resetWorkerPool (σ : GateSt) : GateSt := ⟨0, σ.cap, σ.oracle⟩

/-- parallelQuickSortHelper from src/sort/prl_quicksort.go.  The two forked
goroutines recurse on the disjoint zones [low, lt-1] and [gt+1, high] of the
shared array (their writes never overlap, by the frame properties proved
above), so the model runs the left branch and then the right; the oracle
covers every outcome of the two non-blocking acquisition attempts.  Each
branch that obtains a slot releases it on completion (the deferred receive). -/
def prlQuickSortHelper : Nat → List Int → Nat → Nat → Nat → GateSt →
    List Int × GateSt × List Ev
  | 0, arr, _low, _high, _depth, σ => (arr, σ, [])
  | fuel + 1, arr, low, high, depth, σ =>
      let size := high - low + 1
      let threshold := getOptimalThreshold arr.length size
      if low < high then
        if depth ≤ 1 ∨ size ≤ threshold then
          (quickSortHelper arr low high, σ, [Ev.call size threshold])
        else
          let p := partition3Way arr low high
          let a1 := tryAcquire σ (low : Int) ((p.2.1 : Int) - 1)
          let s1 :=
            if a1.1 then
              let r := prlQuickSortHelper fuel p.1 low (p.2.1 - 1) (depth / 2) a1.2.1
              (r.1, release r.2.1, r.2.2 ++ [Ev.rel])
            else (quickSortHelper p.1 low (p.2.1 - 1), a1.2.1, ([] : List Ev))
          let a2 := tryAcquire s1.2.1 ((p.2.2 : Int) + 1) (high : Int)
          let s2 :=
            if a2.1 then
              let r := prlQuickSortHelper fuel s1.1 (p.2.2 + 1) high (depth / 2) a2.2.1
              (r.1, release r.2.1, r.2.2 ++ [Ev.rel])
            else (quickSortHelper s1.1 (p.2.2 + 1) high, a2.2.1, ([] : List Ev))
          (s2.1, s2.2.1, Ev.call size threshold :: a1.2.2 :: (s1.2.2 ++ a2.2.2 :: s2.2.2))
      else (arr, σ, [Ev.call size threshold])

/-- parallelQuickSort from src/sort/prl_quicksort.go: initWorkerPool fixes
the capacity already recorded in the gate state, then the helper runs on the
whole array with runtime.NumCPU as the depth budget. -/
def parallelQuickSort (ncpu : Nat) (arr : List Int) (σ : GateSt) :
    List Int × GateSt × List Ev :=
  if arr.length < 2 then (arr, σ, [])
  else prlQuickSortHelper arr.length arr 0 (arr.length - 1) ncpu σ

/-- parallelMergeSortHelper from src/sort/prl_mergesort.go, forked branches
sequentialized (each produces an independent fresh sequence).  Note two
source facts this model preserves faithfully: the threshold is recomputed at
every level from the length of the current (sub)sequence, because the source
passes len(arr) of the current call as the totalSize argument, and the
delegation test is the strict len(arr) < threshold. -/
def prlMergeSortHelper : Nat → List Int → Nat → GateSt → List Int × GateSt × List Ev
  | 0, arr, _depth, σ => (arr, σ, [])
  | fuel + 1, arr, depth, σ =>
      if arr.length ≤ 1 then (arr, σ, [])
      else
        let threshold := getOptimalThreshold arr.length arr.length
        if depth ≤ 1 ∨ arr.length < threshold then
          (mergeSort arr, σ, [Ev.call arr.length threshold])
        else
          let mid := arr.length / 2
          let a1 := tryAcquire σ 0 ((mid : Int) - 1)
          let s1 :=
            if a1.1 then
              let r := prlMergeSortHelper fuel (arr.take mid) (depth / 2) a1.2.1
              (r.1, release r.2.1, r.2.2 ++ [Ev.rel])
            else (mergeSort (arr.take mid), a1.2.1, ([] : List Ev))
          let a2 := tryAcquire s1.2.1 (mid : Int) ((arr.length : Int) - 1)
          let s2 :=
            if a2.1 then
              let r := prlMergeSortHelper fuel (arr.drop mid) (depth / 2) a2.2.1
              (r.1, release r.2.1, r.2.2 ++ [Ev.rel])
            else (mergeSort (arr.drop mid), a2.2.1, ([] : List Ev))
          (merge s1.1 s2.1, s2.2.1,
            Ev.call arr.length threshold :: a1.2.2 :: (s1.2.2 ++ a2.2.2 :: s2.2.2))

/-- parallelMergeSort from src/sort/prl_mergesort.go. -/
def parallelMergeSort (ncpu : Nat) (arr : List Int) (σ : GateSt) :
    List Int × GateSt × List Ev :=
  prlMergeSortHelper arr.length arr ncpu σ

/-- safeParallelQuickSort from src/sort/prl_mergesort.go under an abstract
fault model: fault = none means the parallel sort ran to completion; fault =
some (arrP, σP) means it aborted abnormally leaving contents arrP and gate
state σP, whereupon the deferred recover drains the worker pool and runs the
sequential quickSort on the array in place from its current contents. -/
def safeParallelQuickSort (fault : Option (List Int × GateSt)) (ncpu : Nat)
    (arr : List Int) (σ : GateSt) : List Int × GateSt :=
  match fault with
  | none => ((parallelQuickSort ncpu arr σ).1, (parallelQuickSort ncpu arr σ).2.1)
  | some (arrP, σP) => (quickSort arrP, resetWorkerPool σP)

/-- safeParallelMergeSort from src/sort/prl_mergesort.go under the same
fault model.  On a panic the deferred function drains the pool, and the
recovered function returns the zero value of its unnamed result slice: nil
(modelled as none).  The nil-check fallback in the body sits after the
parallelMergeSort call on the normal path, which the panic bypasses, and
parallelMergeSort never returns nil there. -/
def safeParallelMergeSort (fault : Option GateSt) (ncpu : Nat)
    (arr : List Int) (σ : GateSt) : Option (List Int) × GateSt :=
  match fault with
  | none => (some (parallelMergeSort ncpu arr σ).1, (parallelMergeSort ncpu arr σ).2.1)
  | some σP => (none, resetWorkerPool σP)

/-- Number of gate acquisition attempts recorded in a trace. -/
def acqCount (evs : List Ev) : Nat :=
  evs.countP (fun e => match e with
    | Ev.acqOk _ _ => true
    | Ev.acqFail _ _ => true
    | _ => false)

/-- Number of successful acquisitions recorded in a trace. -/
def okCount (evs : List Ev) : Nat :=
  evs.countP (fun e => match e with
    | Ev.acqOk _ _ => true
    | _ => false)

/-- Number of releases recorded in a trace. -/
def relCount (evs : List Ev) : Nat :=
  evs.countP (fun e => match e with
    | Ev.rel => true
    | _ => false)

/-- The zones (in Go int bounds) for which a gate acquisition was attempted,
in trace order. -/
def attemptedZones (evs : List Ev) : List (Int × Int) :=
  evs.filterMap (fun e => match e with
    | Ev.acqOk lo hi => some (lo, hi)
    | Ev.acqFail lo hi => some (lo, hi)
    | _ => none)

/-- Body of one forked goroutine of parallelQuickSortHelper (the go func
literal in the source): attempt a slot; on success recurse with halved depth
and release the slot on completion; on failure run the sequential helper. -/
def qsBranch (fuel : Nat) (x : List Int) (zl zh depth : Nat) (τ : GateSt)
    (lo hi : Int) : List Int × GateSt × List Ev :=
  let a := tryAcquire τ lo hi
  if a.1 then
    let r := prlQuickSortHelper fuel x zl zh depth a.2.1
    (r.1, release r.2.1, r.2.2 ++ [Ev.rel])
  else (quickSortHelper x zl zh, a.2.1, ([] : List Ev))

/-- Abbreviation for the first (left-zone) branch of a fork step. -/
def qsFork1 (fuel : Nat) (arr : List Int) (low high depth : Nat) (σ : GateSt) :
    List Int × GateSt × List Ev :=
  qsBranch fuel (partition3Way arr low high).1 low
    ((partition3Way arr low high).2.1 - 1) (depth / 2) σ (low : Int)
    (((partition3Way arr low high).2.1 : Int) - 1)

/-- Abbreviation for the second (right-zone) branch of a fork step, run on
the array and gate state left by the first branch. -/
def qsFork2 (fuel : Nat) (arr : List Int) (low high depth : Nat) (σ : GateSt) :
    List Int × GateSt × List Ev :=
  qsBranch fuel (qsFork1 fuel arr low high depth σ).1
    ((partition3Way arr low high).2.2 + 1) high (depth / 2)
    (qsFork1 fuel arr low high depth σ).2.1
    (((partition3Way arr low high).2.2 : Int) + 1) (high : Int)

/-- Body of one forked goroutine of parallelMergeSortHelper. -/
def msBranch (fuel : Nat) (x : List Int) (depth : Nat) (τ : GateSt)
    (lo hi : Int) : List Int × GateSt × List Ev :=
  let a := tryAcquire τ lo hi
  if a.1 then
    let r := prlMergeSortHelper fuel x depth a.2.1
    (r.1, release r.2.1, r.2.2 ++ [Ev.rel])
  else (mergeSort x, a.2.1, ([] : List Ev))

/-- Abbreviation for the first (left-half) branch of a merge fork step. -/
def msFork1 (fuel : Nat) (arr : List Int) (depth : Nat) (σ : GateSt) :
    List Int × GateSt × List Ev :=
  msBranch fuel (arr.take (arr.length / 2)) (depth / 2) σ 0
    ((arr.length / 2 : Nat) - 1 : Int)

/-- Abbreviation for the second (right-half) branch of a merge fork step. -/
def msFork2 (fuel : Nat) (arr : List Int) (depth : Nat) (σ : GateSt) :
    List Int × GateSt × List Ev :=
  msBranch fuel (arr.drop (arr.length / 2)) (depth / 2)
    (msFork1 fuel arr depth σ).2.1
    ((arr.length / 2 : Nat) : Int) ((arr.length : Int) - 1)

/-- mergeSort applied to keyed records (key, tag), every comparison made on
the key component only — the instantiation on which the spec states
stability (tagged-duplicate keys, pairs of key and original index). -/
def mergeSortKeyed (S : List (Int × Int)) : List (Int × Int) :=
  mergeSortG Prod.fst S.length S

end Defs

section Proofs

variable {α : Type} [Inhabited α] [DecidableEq α]

theorem length_setE (l : List α) (i : Nat) (v : α) :
    (setE l i v).length = l.length := List.length_set ..

theorem getE_eq_getElem (l : List α) (i : Nat) (h : i < l.length) :
    getE l i = l[i] := List.getD_eq_getElem l default h

theorem getE_setE_self (l : List α) (i : Nat) (v : α) (h : i < l.length) :
    getE (setE l i v) i = v := by
  rw [getE_eq_getElem _ _ (by simpa [setE] using h)]
  simp [setE]

theorem getE_setE_ne (l : List α) (i k : Nat) (v : α) (h : k ≠ i) :
    getE (setE l i v) k = getE l k := by
  have hik : i ≠ k := fun hh => h hh.symm
  unfold getE setE
  rw [List.getD_eq_getElem?_getD, List.getD_eq_getElem?_getD, List.getElem?_set]
  simp [hik]

theorem getE_setE (l : List α) (i k : Nat) (v : α) :
    getE (setE l i v) k = if k = i ∧ i < l.length then v else getE l k := by
  by_cases hk : k = i
  · subst hk
    by_cases hlen : k < l.length
    · simp [hlen, getE_setE_self l k v hlen]
    · simp [hlen, setE, List.set_eq_of_length_le (Nat.le_of_not_lt hlen)]
  · simp [hk, getE_setE_ne l i k v hk]

theorem length_swapE (l : List α) (i j : Nat) :
    (swapE l i j).length = l.length := by
  simp [swapE, length_setE]

theorem getE_swapE (l : List α) (i j k : Nat)
    (hi : i < l.length) (hj : j < l.length) :
    getE (swapE l i j) k =
      if k = j then getE l i else if k = i then getE l j else getE l k := by
  unfold swapE
  by_cases hkj : k = j
  · subst hkj
    rw [getE_setE_self _ _ _ (by simpa [length_setE] using hj)]
    simp
  · rw [getE_setE_ne _ _ _ _ hkj]
    by_cases hki : k = i
    · subst hki
      rw [getE_setE_self _ _ _ hi]
      simp [hkj]
    · rw [getE_setE_ne _ _ _ _ hki]
      simp [hkj, hki]

theorem setE_perm (l : List α) (i : Nat) (v : α) (h : i < l.length) :
    ∀ w : α, (setE l i v).count w = (l.count w - (if getE l i = w then 1 else 0))
      + (if v = w then 1 else 0) := by
  intro w
  have := List.count_set v w l i h
  simpa [setE, getE_eq_getElem l i h] using this

theorem count_pos_of_getE (l : List α) (i : Nat) (h : i < l.length) :
    1 ≤ l.count (getE l i) := by
  rw [getE_eq_getElem l i h]
  exact List.count_pos_iff.mpr (l.getElem_mem h)

theorem swapE_perm (l : List α) (i j : Nat)
    (hi : i < l.length) (hj : j < l.length) : (swapE l i j).Perm l := by
  rw [List.perm_iff_count]
  intro w
  have hgj2 : getE (setE l i (getE l j)) j = getE l j := by
    rw [getE_setE]; split <;> rfl
  have h2 : (swapE l i j).count w =
      ((setE l i (getE l j)).count w - (if getE (setE l i (getE l j)) j = w then 1 else 0))
        + (if getE l i = w then 1 else 0) :=
    setE_perm (setE l i (getE l j)) j (getE l i) (by simpa [length_setE] using hj) w
  have h1 : (setE l i (getE l j)).count w =
      (l.count w - (if getE l i = w then 1 else 0)) + (if getE l j = w then 1 else 0) :=
    setE_perm l i (getE l j) hi w
  rw [h2, hgj2, h1]
  have hci : 1 ≤ l.count (getE l i) := count_pos_of_getE l i hi
  have hcj : 1 ≤ l.count (getE l j) := count_pos_of_getE l j hj
  by_cases e1 : getE l i = w
  · rw [e1] at hci
    by_cases e2 : getE l j = w
    · rw [e2] at hcj
      simp only [if_pos e1, if_pos e2]
      omega
    · simp only [if_pos e1, if_neg e2]
      omega
  · by_cases e2 : getE l j = w
    · rw [e2] at hcj
      simp only [if_neg e1, if_pos e2]
      omega
    · simp only [if_neg e1, if_neg e2]
      omega

theorem length_segc (l : List α) (s m : Nat) :
    (segc l s m).length = min m (l.length - s) := by
  simp [segc]

theorem getElem_segc (l : List α) (s m k : Nat) (h : k < (segc l s m).length) :
    (segc l s m)[k] = getE l (s + k) := by
  have hk : k < l.length - s := by
    have := length_segc l s m; omega
  unfold segc
  rw [List.getElem_take, List.getElem_drop]
  rw [getE_eq_getElem l (s + k) (by omega)]

theorem segc_zero (l : List α) (s : Nat) : segc l s 0 = [] := by simp [segc]

theorem segc_full (l : List α) : segc l 0 l.length = l := by simp [segc]

theorem segc_succ_right (l : List α) (s m : Nat) (h : s + m < l.length) :
    segc l s (m + 1) = segc l s m ++ [getE l (s + m)] := by
  apply List.ext_getElem
  · simp [length_segc]; omega
  · intro k h1 h2
    rw [getElem_segc l s (m + 1) k h1]
    have hlen : (segc l s m).length = m := by rw [length_segc]; omega
    by_cases hk : k < m
    · rw [List.getElem_append_left (by omega)]
      rw [getElem_segc l s m k (by omega)]
    · have hkm : k = m := by
        have : k < (segc l s (m + 1)).length := h1
        rw [length_segc] at this
        omega
      subst hkm
      rw [List.getElem_append_right (by omega)]
      simp [hlen]

/-- Decomposition of a list into a prefix, a counted segment and a suffix. -/
theorem segc_decomp (l : List α) (s m : Nat) :
    l = l.take s ++ segc l s m ++ l.drop (s + m) := by
  rw [List.append_assoc]
  conv_lhs => rw [← List.take_append_drop s l]
  congr 1
  conv_lhs => rw [← List.take_append_drop m (l.drop s)]
  congr 1
  rw [List.drop_drop]

theorem take_eq_of_frame (l l' : List α) (s : Nat)
    (hlen : l'.length = l.length)
    (hf : ∀ k : Nat, k < s → getE l' k = getE l k) :
    l'.take s = l.take s := by
  apply List.ext_getElem
  · simp [hlen]
  · intro k h1 h2
    rw [List.getElem_take, List.getElem_take]
    rw [← getE_eq_getElem, ← getE_eq_getElem]
    exact hf k (by simp at h1; omega)

theorem drop_eq_of_frame (l l' : List α) (s : Nat)
    (hlen : l'.length = l.length)
    (hf : ∀ k : Nat, s ≤ k → getE l' k = getE l k) :
    l'.drop s = l.drop s := by
  apply List.ext_getElem
  · simp [hlen]
  · intro k h1 h2
    rw [List.getElem_drop, List.getElem_drop]
    rw [← getE_eq_getElem, ← getE_eq_getElem]
    exact hf (s + k) (by omega)

/-- If two equal-length lists agree outside `[s, s+m)` and their counted
segments there are permutations, the whole lists are permutations. -/
theorem perm_of_segc_perm (l l' : List α) (s m : Nat)
    (hlen : l'.length = l.length)
    (hf : ∀ k : Nat, k < s ∨ s + m ≤ k → getE l' k = getE l k)
    (hp : (segc l' s m).Perm (segc l s m)) : l'.Perm l := by
  have hd := segc_decomp l s m
  have hd' := segc_decomp l' s m
  rw [hd, hd']
  have ht : l'.take s = l.take s :=
    take_eq_of_frame l l' s hlen (fun k hk => hf k (Or.inl hk))
  have hdr : l'.drop (s + m) = l.drop (s + m) :=
    drop_eq_of_frame l l' (s + m) hlen (fun k hk => hf k (Or.inr hk))
  rw [ht, hdr]
  exact ((hp.append_left _).append_right _)

/-- Conversely, agreement outside the window plus whole-list permutation give
permutation of the counted segments. -/
theorem segc_perm_of_perm (l l' : List α) (s m : Nat)
    (hlen : l'.length = l.length)
    (hf : ∀ k : Nat, k < s ∨ s + m ≤ k → getE l' k = getE l k)
    (hp : l'.Perm l) : (segc l' s m).Perm (segc l s m) := by
  rw [List.perm_iff_count]
  intro w
  have hd := segc_decomp l s m
  have hd' := segc_decomp l' s m
  have ht : l'.take s = l.take s :=
    take_eq_of_frame l l' s hlen (fun k hk => hf k (Or.inl hk))
  have hdr : l'.drop (s + m) = l.drop (s + m) :=
    drop_eq_of_frame l l' (s + m) hlen (fun k hk => hf k (Or.inr hk))
  have hc : l'.count w = l.count w := (List.perm_iff_count.mp hp) w
  rw [hd, hd'] at hc
  rw [ht, hdr] at hc
  simp only [List.count_append] at hc
  omega

theorem seg_perm_of_perm (l l' : List α) (low high : Nat)
    (hlen : l'.length = l.length)
    (hf : ∀ k : Nat, k < low ∨ high < k → getE l' k = getE l k)
    (hp : l'.Perm l) : (seg l' low high).Perm (seg l low high) := by
  unfold seg
  apply segc_perm_of_perm l l' low (high + 1 - low) hlen _ hp
  intro k hk
  apply hf
  omega

/-- Membership in a counted segment, in terms of reads. -/
theorem mem_segc (l : List α) (s m : Nat) (x : α) (hsm : s + m ≤ l.length) :
    x ∈ segc l s m ↔ ∃ k : Nat, k < m ∧ getE l (s + k) = x := by
  constructor
  · intro hx
    rcases List.getElem_of_mem hx with ⟨k, hk, he⟩
    refine ⟨k, ?_, ?_⟩
    · have := length_segc l s m; omega
    · rw [← getElem_segc l s m k hk]; exact he
  · rintro ⟨k, hk, he⟩
    have hlen : k < (segc l s m).length := by rw [length_segc]; omega
    rw [← he, ← getElem_segc l s m k hlen]
    exact List.getElem_mem hlen

/-- Values in a window are preserved (as a set) by an operation that permutes
the window and fixes everything outside it. -/
theorem segc_value_transfer (l l' : List α) (s m : Nat) (P : α → Prop)
    (hsm : s + m ≤ l.length)
    (hlen : l'.length = l.length)
    (hf : ∀ k : Nat, k < s ∨ s + m ≤ k → getE l' k = getE l k)
    (hp : l'.Perm l)
    (hP : ∀ k : Nat, s ≤ k → k < s + m → P (getE l k)) :
    ∀ k : Nat, s ≤ k → k < s + m → P (getE l' k) := by
  intro k h1 h2
  have hperm := segc_perm_of_perm l l' s m hlen hf hp
  have hmem : getE l' k ∈ segc l' s m := by
    rw [mem_segc l' s m _ (by omega)]
    exact ⟨k - s, by omega, by congr 1; omega⟩
  have hmem2 : getE l' k ∈ segc l s m := hperm.mem_iff.mp hmem
  rw [mem_segc l s m _ hsm] at hmem2
  rcases hmem2 with ⟨k0, hk0, he⟩
  rw [← he]
  exact hP (s + k0) (by omega) (by omega)

theorem insertBFG_perm (κ : α → Int) (kv : α) (s : List α) :
    (insertBFG κ kv s).Perm (kv :: s) := by
  induction s with
  | nil => simp [insertBFG]
  | cons b t ih =>
    by_cases h : κ kv < κ b
    · simp [insertBFG, h]
    · simp only [insertBFG, if_neg h]
      exact (ih.cons b).trans (List.Perm.swap kv b t)

theorem length_insertBFG (κ : α → Int) (kv : α) (s : List α) :
    (insertBFG κ kv s).length = s.length + 1 := by
  have := (insertBFG_perm κ kv s).length_eq
  simpa using this

theorem insertBFG_append_gt (κ : α → Int) (kv a : α) (s : List α)
    (h : κ kv < κ a) :
    insertBFG κ kv (s ++ [a]) = insertBFG κ kv s ++ [a] := by
  induction s with
  | nil => simp [insertBFG, h]
  | cons b t ih =>
    by_cases hb : κ kv < κ b
    · simp [insertBFG, hb]
    · simp [insertBFG, hb, ih]

theorem insertBFG_all_le (κ : α → Int) (kv : α) (s : List α)
    (h : ∀ x ∈ s, κ x ≤ κ kv) :
    insertBFG κ kv s = s ++ [kv] := by
  induction s with
  | nil => simp [insertBFG]
  | cons b t ih =>
    have hb : ¬ κ kv < κ b := not_lt.mpr (h b (by simp))
    simp only [insertBFG, if_neg hb, List.cons_append]
    rw [ih (fun x hx => h x (by simp [hx]))]

theorem insertBFG_sorted (κ : α → Int) (kv : α) (s : List α)
    (hs : SortedK κ s) : SortedK κ (insertBFG κ kv s) := by
  induction s with
  | nil => simp [insertBFG, SortedK]
  | cons b t ih =>
    rw [SortedK, List.pairwise_cons] at hs
    by_cases h : κ kv < κ b
    · rw [SortedK, insertBFG, if_pos h, List.pairwise_cons]
      constructor
      · intro x hx
        rcases List.mem_cons.mp hx with rfl | hx
        · exact le_of_lt h
        · exact le_trans (le_of_lt h) (hs.1 x hx)
      · rw [List.pairwise_cons]
        exact hs
    · rw [SortedK, insertBFG, if_neg h, List.pairwise_cons]
      constructor
      · intro x hx
        have hx2 := (insertBFG_perm κ kv t).mem_iff.mp hx
        rcases List.mem_cons.mp hx2 with rfl | hx2
        · exact not_lt.mp h
        · exact hs.1 x hx2
      · exact ih hs.2

theorem filter_insertBFG (κ : α → Int) (kv : α) (s : List α) (k : Int)
    (hs : SortedK κ s) :
    (insertBFG κ kv s).filter (fun x => decide (κ x = k)) =
      s.filter (fun x => decide (κ x = k)) ++ (if κ kv = k then [kv] else []) := by
  induction s with
  | nil =>
    simp only [insertBFG, List.filter, List.nil_append]
    by_cases hk : κ kv = k <;> simp [hk]
  | cons b t ih =>
    rw [SortedK, List.pairwise_cons] at hs
    by_cases h : κ kv < κ b
    · rw [insertBFG, if_pos h]
      by_cases hk : κ kv = k
      · have hbt : ∀ x ∈ b :: t, ¬ κ x = k := by
          intro x hx
          rcases List.mem_cons.mp hx with rfl | hx
          · omega
          · have := hs.1 x hx
            omega
        have hfilt : (b :: t).filter (fun x => decide (κ x = k)) = [] := by
          rw [List.filter_eq_nil_iff]
          intro x hx
          simpa using hbt x hx
        rw [List.filter_cons_of_pos (by simpa using hk), hfilt]
        simp [hk]
      · have hfilt2 : (kv :: b :: t).filter (fun x => decide (κ x = k)) =
            (b :: t).filter (fun x => decide (κ x = k)) :=
          List.filter_cons_of_neg (by simpa using hk)
        rw [hfilt2]
        simp [hk]
    · rw [insertBFG, if_neg h]
      by_cases hbk : κ b = k
      · rw [List.filter_cons_of_pos (by simpa using hbk),
          List.filter_cons_of_pos (by simpa using hbk), ih hs.2]
        simp
      · rw [List.filter_cons_of_neg (by simpa using hbk),
          List.filter_cons_of_neg (by simpa using hbk), ih hs.2]

/-- Two lists whose key-class sublists all agree are permutations. -/
theorem perm_of_filter_key (κ : α → Int) (l l' : List α)
    (h : ∀ k : Int, l'.filter (fun x => decide (κ x = k)) =
      l.filter (fun x => decide (κ x = k))) : l'.Perm l := by
  rw [List.perm_iff_count]
  intro x
  have h1 : l'.count x = (l'.filter (fun y => decide (κ y = κ x))).count x := by
    rw [List.count_filter]
    simp
  have h2 : l.count x = (l.filter (fun y => decide (κ y = κ x))).count x := by
    rw [List.count_filter]
    simp
  rw [h1, h2, h (κ x)]

theorem segc_setE_of_ge (l : List α) (s m pos : Nat) (v : α)
    (h : s + m ≤ pos) : segc (setE l pos v) s m = segc l s m := by
  apply List.ext_getElem
  · simp [segc, setE]
  · intro k h1 h2
    rw [getElem_segc, getElem_segc]
    apply getE_setE_ne
    have := length_segc (setE l pos v) s m
    rw [length_setE] at this
    omega

theorem segc_take (l : List α) (s m m' : Nat) (h : m' ≤ m) :
    segc l s m' = (segc l s m).take m' := by
  unfold segc
  rw [List.take_take]
  congr 1
  omega

theorem sortedK_take (κ : α → Int) (s : List α) (m : Nat)
    (h : SortedK κ s) : SortedK κ (s.take m) :=
  h.sublist (List.take_sublist m s)

theorem sortedK_short (κ : α → Int) (s : List α) (h : s.length ≤ 1) :
    SortedK κ s := by
  match s, h with
  | [], _ => exact List.Pairwise.nil
  | [a], _ => simp [SortedK]

/-- Effect of the shifting loop: on a key-sorted window of `t` elements
starting at `low` (with the loop entered at `j = low + t - 1`), the result
extends the window by one, holding exactly the ordered insertion of the key,
and nothing outside `[low, low+t]` is written. -/
theorem insShiftG_spec (κ : α → Int) :
    ∀ (fuel : Nat) (l : List α) (kv : α) (low : Nat) (j : Int) (t : Nat),
      j = (low : Int) + t - 1 →
      low + t < l.length →
      t ≤ fuel →
      SortedK κ (segc l low t) →
      (insShiftG κ fuel l kv low j).length = l.length ∧
      (∀ k : Nat, k < low ∨ low + t < k →
        getE (insShiftG κ fuel l kv low j) k = getE l k) ∧
      segc (insShiftG κ fuel l kv low j) low (t + 1) =
        insertBFG κ kv (segc l low t) := by
  intro fuel
  induction fuel with
  | zero =>
    intro l kv low j t hj hlen ht _hs
    have ht0 : t = 0 := by omega
    subst ht0
    have hj1 : (j + 1).toNat = low := by omega
    simp only [insShiftG, hj1]
    refine ⟨length_setE .., ?_, ?_⟩
    · intro k hk
      exact getE_setE_ne l low k kv (by omega)
    · rw [segc_zero, insertBFG]
      have h1 : segc (setE l low kv) low (0 + 1) =
          segc (setE l low kv) low 0 ++ [getE (setE l low kv) low] := by
        apply segc_succ_right
        rw [length_setE]
        omega
      rw [h1, segc_zero, getE_setE_self l low kv (by omega)]
      rfl
  | succ fuel ih =>
    intro l kv low j t hj hlen ht hs
    by_cases ht0 : t = 0
    · subst ht0
      have hcond : ¬ ((low : Int) ≤ j ∧ κ kv < κ (getE l j.toNat)) := by
        rintro ⟨h1, _⟩
        omega
      have hj1 : (j + 1).toNat = low := by omega
      simp only [insShiftG, if_neg hcond, hj1]
      refine ⟨length_setE .., ?_, ?_⟩
      · intro k hk
        exact getE_setE_ne l low k kv (by omega)
      · rw [segc_zero, insertBFG]
        have h1 : segc (setE l low kv) low (0 + 1) =
            segc (setE l low kv) low 0 ++ [getE (setE l low kv) low] := by
          apply segc_succ_right
          rw [length_setE]
          omega
        rw [h1, segc_zero, getE_setE_self l low kv (by omega)]
        rfl
    · have ht1 : 1 ≤ t := by omega
      have hjt : j.toNat = low + t - 1 := by omega
      have hjlow : (low : Int) ≤ j := by omega
      have hseg : segc l low t = segc l low (t - 1) ++ [getE l (low + (t - 1))] := by
        have := segc_succ_right l low (t - 1) (by omega)
        rw [show t - 1 + 1 = t by omega] at this
        exact this
      by_cases hc : κ kv < κ (getE l j.toNat)
      · simp only [insShiftG, if_pos (And.intro hjlow hc)]
        have hsort1 : SortedK κ (segc (setE l (j.toNat + 1) (getE l j.toNat)) low (t - 1)) := by
          rw [segc_setE_of_ge _ _ _ _ _ (by omega)]
          rw [segc_take l low t (t - 1) (by omega)]
          exact sortedK_take κ _ _ hs
        have hrec := ih (setE l (j.toNat + 1) (getE l j.toNat)) kv low (j - 1) (t - 1)
          (by omega) (by rw [length_setE]; omega) (by omega) hsort1
        rcases hrec with ⟨ihlen, ihframe, ihseg⟩
        have hlen1 : (setE l (j.toNat + 1) (getE l j.toNat)).length = l.length :=
          length_setE ..
        refine ⟨ihlen.trans hlen1, ?_, ?_⟩
        · intro k hk
          have h1 : getE (insShiftG κ fuel (setE l (j.toNat + 1) (getE l j.toNat)) kv low (j - 1)) k
              = getE (setE l (j.toNat + 1) (getE l j.toNat)) k :=
            ihframe k (by omega)
          rw [h1]
          exact getE_setE_ne _ _ _ _ (by omega)
        · have hstep : segc (insShiftG κ fuel (setE l (j.toNat + 1) (getE l j.toNat)) kv low (j - 1)) low (t + 1) =
              segc (insShiftG κ fuel (setE l (j.toNat + 1) (getE l j.toNat)) kv low (j - 1)) low t
                ++ [getE (insShiftG κ fuel (setE l (j.toNat + 1) (getE l j.toNat)) kv low (j - 1)) (low + t)] := by
            apply segc_succ_right
            rw [ihlen, hlen1]
            omega
          rw [hstep]
          have hlast : getE (insShiftG κ fuel (setE l (j.toNat + 1) (getE l j.toNat)) kv low (j - 1)) (low + t)
              = getE l j.toNat := by
            rw [ihframe (low + t) (by omega)]
            have : j.toNat + 1 = low + t := by omega
            rw [← this]
            exact getE_setE_self _ _ _ (by omega)
          rw [hlast]
          have hmid : segc (insShiftG κ fuel (setE l (j.toNat + 1) (getE l j.toNat)) kv low (j - 1)) low t =
              insertBFG κ kv (segc l low (t - 1)) := by
            have := ihseg
            rw [show t - 1 + 1 = t by omega] at this
            rw [this, segc_setE_of_ge _ _ _ _ _ (by omega)]
          rw [hmid, hseg]
          rw [show low + (t - 1) = j.toNat by omega]
          exact (insertBFG_append_gt κ kv (getE l j.toNat) (segc l low (t - 1)) hc).symm
      · have hcond : ¬ ((low : Int) ≤ j ∧ κ kv < κ (getE l j.toNat)) := by
          rintro ⟨_, h2⟩
          exact hc h2
        have hj1 : (j + 1).toNat = low + t := by omega
        simp only [insShiftG, if_neg hcond, hj1]
        refine ⟨length_setE .., ?_, ?_⟩
        · intro k hk
          exact getE_setE_ne l (low + t) k kv (by omega)
        · have h1 : segc (setE l (low + t) kv) low (t + 1) =
              segc (setE l (low + t) kv) low t ++ [getE (setE l (low + t) kv) (low + t)] := by
            apply segc_succ_right
            rw [length_setE]
            omega
          rw [h1, segc_setE_of_ge _ _ _ _ _ (by omega),
            getE_setE_self l (low + t) kv (by omega)]
          have hall : ∀ x ∈ segc l low t, κ x ≤ κ kv := by
            intro x hx
            rw [hseg] at hx
            have hlastle : κ (getE l (low + (t - 1))) ≤ κ kv := by
              have : low + (t - 1) = j.toNat := by omega
              rw [this]
              exact not_lt.mp hc
            rcases List.mem_append.mp hx with hx | hx
            · have hso := hs
              rw [hseg, SortedK, List.pairwise_append] at hso
              have := hso.2.2 x hx (getE l (low + (t - 1))) (by simp)
              exact le_trans this hlastle
            · rcases List.mem_singleton.mp hx with rfl
              exact hlastle
          exact (insertBFG_all_le κ kv (segc l low t) hall).symm

theorem segc_add (l : List α) (s m1 m2 : Nat) :
    segc l s (m1 + m2) = segc l s m1 ++ segc l (s + m1) m2 := by
  unfold segc
  rw [List.take_add, List.drop_drop]

theorem segc_eq_of_agree (l l' : List α) (s m : Nat)
    (hlen : l'.length = l.length)
    (ha : ∀ k : Nat, s ≤ k → k < s + m → getE l' k = getE l k) :
    segc l' s m = segc l s m := by
  apply List.ext_getElem
  · simp [segc, hlen]
  · intro k h1 h2
    rw [getElem_segc, getElem_segc]
    apply ha
    · omega
    · have := length_segc l' s m
      omega

/-- Invariant proof for the outer insertion loop: entering iteration `i` with
arr[low..i-1] key-sorted, the loop sorts arr[low..high] in place, writes
nothing outside `[low, high]`, and preserves every key-class sublist of the
window (the stability content). -/
theorem insOuterG_spec (κ : α → Int) :
    ∀ (fuel : Nat) (l : List α) (low i high : Nat),
      high < l.length → low < i → high + 1 ≤ i + fuel →
      SortedK κ (segc l low (i - low)) →
      (insOuterG κ fuel l low i high).length = l.length ∧
      (∀ k : Nat, k < low ∨ high < k →
        getE (insOuterG κ fuel l low i high) k = getE l k) ∧
      SortedK κ (segc (insOuterG κ fuel l low i high) low (high + 1 - low)) ∧
      (∀ k : Int, (segc (insOuterG κ fuel l low i high) low (high + 1 - low)).filter
          (fun x => decide (κ x = k)) =
        (segc l low (high + 1 - low)).filter (fun x => decide (κ x = k))) := by
  intro fuel
  induction fuel with
  | zero =>
    intro l low i high hlen hi hfuel hs
    have hih : ¬ i ≤ high := by omega
    refine ⟨rfl, fun k _ => rfl, ?_, fun k => rfl⟩
    show SortedK κ (segc l low (high + 1 - low))
    rw [segc_take l low (i - low) (high + 1 - low) (by omega)]
    exact sortedK_take κ _ _ hs
  | succ fuel ih =>
    intro l low i high hlen hi hfuel hs
    by_cases hih : i ≤ high
    · simp only [insOuterG, if_pos hih]
      have hshift := insShiftG_spec κ (i - low) l (getE l i) low ((i : Int) - 1) (i - low)
        (by omega) (by omega) (by omega) hs
      rcases hshift with ⟨slen, sframe, sseg⟩
      have hilow : low + (i - low) = i := by omega
      have hnew : SortedK κ (segc (insShiftG κ (i - low) l (getE l i) low ((i : Int) - 1))
          low (i + 1 - low)) := by
        rw [show i + 1 - low = (i - low) + 1 by omega, sseg]
        apply insertBFG_sorted κ _ _ hs
      have hrec := ih (insShiftG κ (i - low) l (getE l i) low ((i : Int) - 1)) low (i + 1) high
        (by omega) (by omega) (by omega) hnew
      rcases hrec with ⟨rlen, rframe, rsort, rfilt⟩
      refine ⟨rlen.trans slen, ?_, rsort, ?_⟩
      · intro k hk
        rw [rframe k hk]
        exact sframe k (by omega)
      · intro k
        rw [rfilt k]
        have hsplit1 : segc (insShiftG κ (i - low) l (getE l i) low ((i : Int) - 1)) low (high + 1 - low) =
            segc (insShiftG κ (i - low) l (getE l i) low ((i : Int) - 1)) low ((i - low) + 1)
              ++ segc (insShiftG κ (i - low) l (getE l i) low ((i : Int) - 1)) (i + 1) (high - i) := by
          have hx := segc_add (insShiftG κ (i - low) l (getE l i) low ((i : Int) - 1))
            low ((i - low) + 1) (high - i)
          rw [show (i - low) + 1 + (high - i) = high + 1 - low by omega,
            show low + ((i - low) + 1) = i + 1 by omega] at hx
          exact hx
        have hsplit2 : segc l low (high + 1 - low) =
            segc l low ((i - low) + 1) ++ segc l (i + 1) (high - i) := by
          have hx := segc_add l low ((i - low) + 1) (high - i)
          rw [show (i - low) + 1 + (high - i) = high + 1 - low by omega,
            show low + ((i - low) + 1) = i + 1 by omega] at hx
          exact hx
        have htail : segc (insShiftG κ (i - low) l (getE l i) low ((i : Int) - 1)) (i + 1) (high - i) =
            segc l (i + 1) (high - i) := by
          apply segc_eq_of_agree _ _ _ _ slen
          intro k2 h1 h2
          exact sframe k2 (by omega)
        have hhead : segc l low ((i - low) + 1) = segc l low (i - low) ++ [getE l i] := by
          have := segc_succ_right l low (i - low) (by omega)
          rw [hilow] at this
          exact this
        rw [hsplit1, hsplit2, htail, sseg, hhead]
        simp only [List.filter_append]
        rw [filter_insertBFG κ (getE l i) (segc l low (i - low)) k hs]
        congr 1
        congr 1
        by_cases hk : κ (getE l i) = k <;> simp [hk, List.filter]
    · have heq : insOuterG κ (fuel + 1) l low i high = l := by
        simp only [insOuterG, if_neg hih]
      rw [heq]
      refine ⟨rfl, fun k _ => rfl, ?_, fun k => rfl⟩
      rw [segc_take l low (i - low) (high + 1 - low) (by omega)]
      exact sortedK_take κ _ _ hs

/-- Full specification of the in-place insertion sort on arr[low..high]:
length preserved, frame outside `[low, high]`, the window becomes key-sorted,
every key-class sublist of the window is preserved in order (stability), and
the whole list is a permutation of the input. -/
theorem insertionSortG_spec (κ : α → Int) (l : List α) (low high : Nat)
    (hlen : high < l.length) :
    (insertionSortG κ l low high).length = l.length ∧
    (∀ k : Nat, k < low ∨ high < k →
      getE (insertionSortG κ l low high) k = getE l k) ∧
    SortedK κ (segc (insertionSortG κ l low high) low (high + 1 - low)) ∧
    (∀ k : Int, (segc (insertionSortG κ l low high) low (high + 1 - low)).filter
        (fun x => decide (κ x = k)) =
      (segc l low (high + 1 - low)).filter (fun x => decide (κ x = k))) ∧
    (insertionSortG κ l low high).Perm l := by
  have hstart : SortedK κ (segc l low (low + 1 - low)) := by
    apply sortedK_short
    rw [length_segc]
    omega
  have h := insOuterG_spec κ (high - low) l low (low + 1) high hlen (by omega)
    (by omega) hstart
  rcases h with ⟨rlen, rframe, rsort, rfilt⟩
  refine ⟨rlen, rframe, rsort, rfilt, ?_⟩
  by_cases hlh : low ≤ high
  · apply perm_of_segc_perm _ _ low (high + 1 - low) rlen
    · intro k hk
      exact rframe k (by omega)
    · exact perm_of_filter_key κ _ _ rfilt
  · apply perm_of_segc_perm _ _ low 0 rlen
    · intro k hk
      exact rframe k (by omega)
    · simp [segc_zero]

theorem sortedK_sublist (κ : α → Int) (s s2 : List α) (hsub : s.Sublist s2)
    (h : SortedK κ s2) : SortedK κ s := h.sublist hsub

theorem sortedK_drop (κ : α → Int) (l : List α) (m : Nat)
    (h : SortedK κ l) : SortedK κ (l.drop m) :=
  h.sublist (List.drop_sublist m l)

theorem head_le_drop (κ : α → Int) (l : List α) (m : Nat)
    (h : SortedK κ l) (hm : m < l.length) :
    ∀ x ∈ l.drop (m + 1), κ (getE l m) ≤ κ x := by
  intro x hx
  have hd := List.drop_eq_getElem_cons hm
  have hs : SortedK κ (l.drop m) := sortedK_drop κ l m h
  rw [hd, ← getE_eq_getElem l m hm] at hs
  rw [SortedK, List.pairwise_cons] at hs
  exact hs.1 x hx

theorem getE_mem_drop (l : List α) (i : Nat) (h : i < l.length) :
    getE l i ∈ l.drop i := by
  have hdl : l.drop i = getE l i :: l.drop (i + 1) := by
    rw [getE_eq_getElem l i h]
    exact List.drop_eq_getElem_cons h
  rw [hdl]
  exact List.mem_cons_self _ _

theorem mem_drop_succ (l : List α) (i : Nat) (x : α) (h : i < l.length)
    (hx : x ∈ l.drop (i + 1)) : x ∈ l.drop i := by
  rw [List.drop_eq_getElem_cons h]
  exact List.mem_cons_of_mem _ hx

theorem mergeLoopG_perm (κ : α → Int) :
    ∀ (fuel : Nat) (left right : List α) (i j : Nat) (acc : List α),
      (mergeLoopG κ fuel left right i j acc).Perm
        (acc ++ left.drop i ++ right.drop j) := by
  intro fuel
  induction fuel with
  | zero => intro left right i j acc; exact List.Perm.refl _
  | succ fuel ih =>
    intro left right i j acc
    by_cases hij : i < left.length ∧ j < right.length
    · simp only [mergeLoopG, if_pos hij]
      by_cases hle : κ (getE left i) ≤ κ (getE right j)
      · rw [if_pos hle]
        refine (ih left right (i + 1) j (acc ++ [getE left i])).trans ?_
        have hdl : left.drop i = getE left i :: left.drop (i + 1) := by
          rw [getE_eq_getElem left i hij.1]
          exact List.drop_eq_getElem_cons hij.1
        rw [hdl]
        simp
      · rw [if_neg hle]
        refine (ih left right i (j + 1) (acc ++ [getE right j])).trans ?_
        have hdr : right.drop j = getE right j :: right.drop (j + 1) := by
          rw [getE_eq_getElem right j hij.2]
          exact List.drop_eq_getElem_cons hij.2
        rw [hdr]
        have h1 : acc ++ [getE right j] ++ left.drop i ++ right.drop (j + 1)
            = acc ++ ([getE right j] ++ (left.drop i ++ right.drop (j + 1))) := by simp
        have h2 : acc ++ left.drop i ++ (getE right j :: right.drop (j + 1))
            = acc ++ (left.drop i ++ ([getE right j] ++ right.drop (j + 1))) := by simp
        rw [h1, h2]
        exact List.Perm.append_left acc
          (List.perm_append_comm_assoc [getE right j] (left.drop i) (right.drop (j + 1)))
    · simp only [mergeLoopG, if_neg hij]
      exact List.Perm.refl _

theorem mergeLoopG_sorted (κ : α → Int) :
    ∀ (fuel : Nat) (left right : List α) (i j : Nat) (acc : List α),
      left.length - i + (right.length - j) ≤ fuel →
      SortedK κ left → SortedK κ right → SortedK κ acc →
      (∀ a ∈ acc, ∀ x : α, x ∈ left.drop i ∨ x ∈ right.drop j → κ a ≤ κ x) →
      SortedK κ (mergeLoopG κ fuel left right i j acc) := by
  intro fuel
  induction fuel with
  | zero =>
    intro left right i j acc hfuel hl hr hacc hb
    have hi : left.length ≤ i := by omega
    have hj : right.length ≤ j := by omega
    rw [mergeLoopG, List.drop_eq_nil_of_le hi, List.drop_eq_nil_of_le hj]
    simpa using hacc
  | succ fuel ih =>
    intro left right i j acc hfuel hl hr hacc hb
    by_cases hij : i < left.length ∧ j < right.length
    · simp only [mergeLoopG, if_pos hij]
      by_cases hle : κ (getE left i) ≤ κ (getE right j)
      · rw [if_pos hle]
        apply ih left right (i + 1) j (acc ++ [getE left i]) (by omega) hl hr
        · rw [SortedK, List.pairwise_append]
          refine ⟨hacc, by simp [SortedK], ?_⟩
          intro a ha y hy
          rcases List.mem_singleton.mp hy with rfl
          exact hb a ha _ (Or.inl (getE_mem_drop left i hij.1))
        · intro a ha x hx
          rcases List.mem_append.mp ha with ha | ha
          · apply hb a ha
            rcases hx with hx | hx
            · exact Or.inl (mem_drop_succ left i x hij.1 hx)
            · exact Or.inr hx
          · rcases List.mem_singleton.mp ha with rfl
            rcases hx with hx | hx
            · exact head_le_drop κ left i hl hij.1 x hx
            · refine le_trans hle ?_
              have hdr : right.drop j = getE right j :: right.drop (j + 1) := by
                rw [getE_eq_getElem right j hij.2]
                exact List.drop_eq_getElem_cons hij.2
              rw [hdr] at hx
              rcases List.mem_cons.mp hx with rfl | hx
              · exact le_refl _
              · exact head_le_drop κ right j hr hij.2 x hx
      · rw [if_neg hle]
        apply ih left right i (j + 1) (acc ++ [getE right j]) (by omega) hl hr
        · rw [SortedK, List.pairwise_append]
          refine ⟨hacc, by simp [SortedK], ?_⟩
          intro a ha y hy
          rcases List.mem_singleton.mp hy with rfl
          exact hb a ha _ (Or.inr (getE_mem_drop right j hij.2))
        · intro a ha x hx
          rcases List.mem_append.mp ha with ha | ha
          · apply hb a ha
            rcases hx with hx | hx
            · exact Or.inl hx
            · exact Or.inr (mem_drop_succ right j x hij.2 hx)
          · rcases List.mem_singleton.mp ha with rfl
            rcases hx with hx | hx
            · have hdl : left.drop i = getE left i :: left.drop (i + 1) := by
                rw [getE_eq_getElem left i hij.1]
                exact List.drop_eq_getElem_cons hij.1
              rw [hdl] at hx
              have hlt : κ (getE right j) ≤ κ (getE left i) := le_of_lt (not_le.mp hle)
              rcases List.mem_cons.mp hx with rfl | hx
              · exact hlt
              · exact le_trans hlt (head_le_drop κ left i hl hij.1 x hx)
            · exact head_le_drop κ right j hr hij.2 x hx
    · simp only [mergeLoopG, if_neg hij]
      rw [List.append_assoc, SortedK, List.pairwise_append]
      refine ⟨hacc, ?_, ?_⟩
      · rw [List.pairwise_append]
        refine ⟨sortedK_drop κ left i hl, sortedK_drop κ right j hr, ?_⟩
        intro x hx y hy
        rcases not_and_or.mp hij with h | h
        · rw [List.drop_eq_nil_of_le (Nat.le_of_not_lt h)] at hx
          simp at hx
        · rw [List.drop_eq_nil_of_le (Nat.le_of_not_lt h)] at hy
          simp at hy
      · intro x hx y hy
        exact hb x hx y (by rwa [List.mem_append] at hy)

/-- Stability of the merge loop: because ties take the left element, for each
key class the output lists the left source's class members first, in order,
then the right source's — provided both sources are key-sorted. -/
theorem mergeLoopG_filter (κ : α → Int) (k : Int) :
    ∀ (fuel : Nat) (left right : List α) (i j : Nat) (acc : List α),
      SortedK κ left → SortedK κ right →
      (mergeLoopG κ fuel left right i j acc).filter (fun x => decide (κ x = k)) =
        acc.filter (fun x => decide (κ x = k))
          ++ (left.drop i).filter (fun x => decide (κ x = k))
          ++ (right.drop j).filter (fun x => decide (κ x = k)) := by
  intro fuel
  induction fuel with
  | zero =>
    intro left right i j acc hl hr
    simp [mergeLoopG, List.filter_append]
  | succ fuel ih =>
    intro left right i j acc hl hr
    by_cases hij : i < left.length ∧ j < right.length
    · have hdl : left.drop i = getE left i :: left.drop (i + 1) := by
        rw [getE_eq_getElem left i hij.1]
        exact List.drop_eq_getElem_cons hij.1
      have hdr : right.drop j = getE right j :: right.drop (j + 1) := by
        rw [getE_eq_getElem right j hij.2]
        exact List.drop_eq_getElem_cons hij.2
      simp only [mergeLoopG, if_pos hij]
      by_cases hle : κ (getE left i) ≤ κ (getE right j)
      · rw [if_pos hle, ih left right (i + 1) j (acc ++ [getE left i]) hl hr, hdl]
        by_cases hk : κ (getE left i) = k
        · rw [List.filter_append, List.filter_cons_of_pos (by simpa using hk),
            List.filter_cons_of_pos (by simpa using hk)]
          simp
        · rw [List.filter_append, List.filter_cons_of_neg (by simpa using hk),
            List.filter_cons_of_neg (by simpa using hk)]
          simp
      · rw [if_neg hle, ih left right i (j + 1) (acc ++ [getE right j]) hl hr, hdr]
        by_cases hk : κ (getE right j) = k
        · have hnil : (left.drop i).filter (fun x => decide (κ x = k)) = [] := by
            rw [List.filter_eq_nil_iff]
            intro x hx
            rw [hdl] at hx
            have hgt : κ (getE right j) < κ x := by
              rcases List.mem_cons.mp hx with rfl | hx
              · exact not_le.mp hle
              · exact lt_of_lt_of_le (not_le.mp hle) (head_le_drop κ left i hl hij.1 x hx)
            simp only [decide_eq_true_eq]
            omega
          rw [List.filter_append, List.filter_cons_of_pos (by simpa using hk),
            List.filter_cons_of_pos (by simpa using hk), hnil]
          simp
        · rw [List.filter_append, List.filter_cons_of_neg (by simpa using hk),
            List.filter_cons_of_neg (by simpa using hk)]
          simp
    · simp only [mergeLoopG, if_neg hij]
      simp [List.filter_append]

theorem mergeG_perm (κ : α → Int) (left right : List α) :
    (mergeG κ left right).Perm (left ++ right) := by
  have h := mergeLoopG_perm κ (left.length + right.length) left right 0 0 []
  simpa [mergeG] using h

theorem mergeG_sorted (κ : α → Int) (left right : List α)
    (hl : SortedK κ left) (hr : SortedK κ right) :
    SortedK κ (mergeG κ left right) := by
  apply mergeLoopG_sorted κ (left.length + right.length) left right 0 0 []
    (by omega) hl hr (by simp [SortedK])
  intro a ha
  simp at ha

theorem mergeG_filter (κ : α → Int) (left right : List α) (k : Int)
    (hl : SortedK κ left) (hr : SortedK κ right) :
    (mergeG κ left right).filter (fun x => decide (κ x = k)) =
      left.filter (fun x => decide (κ x = k))
        ++ right.filter (fun x => decide (κ x = k)) := by
  have h := mergeLoopG_filter κ k (left.length + right.length) left right 0 0 [] hl hr
  simpa [mergeG] using h

/-- Full specification of mergeSort: the result is a permutation of the
input, key-sorted, and preserves every key-class sublist in input order
(stability). -/
theorem mergeSortG_spec (κ : α → Int) :
    ∀ (fuel : Nat) (arr : List α), arr.length ≤ fuel →
      (mergeSortG κ fuel arr).Perm arr ∧
      SortedK κ (mergeSortG κ fuel arr) ∧
      (∀ k : Int, (mergeSortG κ fuel arr).filter (fun x => decide (κ x = k)) =
        arr.filter (fun x => decide (κ x = k))) := by
  intro fuel
  induction fuel with
  | zero =>
    intro arr hfuel
    have h0 : arr = [] := List.length_eq_zero.mp (by omega)
    subst h0
    refine ⟨List.Perm.refl _, ?_, ?_⟩
    · simp [mergeSortG, SortedK]
    · intro k
      rfl
  | succ fuel ih =>
    intro arr hfuel
    by_cases h1 : arr.length ≤ 1
    · have heq : mergeSortG κ (fuel + 1) arr = arr := by
        simp only [mergeSortG, if_pos h1]
      rw [heq]
      exact ⟨List.Perm.refl _, sortedK_short κ arr h1, fun k => rfl⟩
    · by_cases h16 : arr.length ≤ 16
      · simp only [mergeSortG, if_neg h1, if_pos h16]
        have hins := insertionSortG_spec κ arr 0 (arr.length - 1) (by omega)
        rcases hins with ⟨ilen, _iframe, isort, ifilt, iperm⟩
        have hlen2 : arr.length - 1 + 1 - 0 = (insertionSortG κ arr 0 (arr.length - 1)).length := by
          rw [ilen]
          omega
        have hfull : segc (insertionSortG κ arr 0 (arr.length - 1)) 0 (arr.length - 1 + 1 - 0) =
            insertionSortG κ arr 0 (arr.length - 1) := by
          rw [hlen2]
          exact segc_full _
        have hfull2 : segc arr 0 (arr.length - 1 + 1 - 0) = arr := by
          rw [show arr.length - 1 + 1 - 0 = arr.length by omega]
          exact segc_full _
        refine ⟨iperm, ?_, ?_⟩
        · have := isort
          rwa [hfull] at this
        · intro k
          have := ifilt k
          rwa [hfull, hfull2] at this
      · simp only [mergeSortG, if_neg h1, if_neg h16]
        have htl : (arr.take (arr.length / 2)).length ≤ fuel := by
          rw [List.length_take]
          omega
        have hdl : (arr.drop (arr.length / 2)).length ≤ fuel := by
          rw [List.length_drop]
          omega
        rcases ih (arr.take (arr.length / 2)) htl with ⟨p1, s1, f1⟩
        rcases ih (arr.drop (arr.length / 2)) hdl with ⟨p2, s2, f2⟩
        refine ⟨?_, mergeG_sorted κ _ _ s1 s2, ?_⟩
        · refine (mergeG_perm κ _ _).trans ?_
          have := (p1.append p2)
          rwa [List.take_append_drop] at this
        · intro k
          rw [mergeG_filter κ _ _ k s1 s2, f1 k, f2 k, ← List.filter_append,
            List.take_append_drop]

theorem condSwap_spec (arr : List Int) (u v : Nat)
    (hu : u < arr.length) (hv : v < arr.length) :
    (condSwap arr u v).length = arr.length ∧
    (∀ k : Nat, k ≠ u → k ≠ v → getE (condSwap arr u v) k = getE arr k) ∧
    (condSwap arr u v).Perm arr := by
  unfold condSwap
  split
  · refine ⟨length_swapE .., ?_, swapE_perm arr u v hu hv⟩
    intro k hku hkv
    rw [getE_swapE arr u v k hu hv]
    simp [hku, hkv]
  · exact ⟨rfl, fun k _ _ => rfl, List.Perm.refl _⟩

theorem medianOfThree_spec (arr : List Int) (a b c : Nat)
    (ha : a < arr.length) (hb : b < arr.length) (hc : c < arr.length) :
    (medianOfThree arr a b c).length = arr.length ∧
    (∀ k : Nat, k ≠ a → k ≠ b → k ≠ c → getE (medianOfThree arr a b c) k = getE arr k) ∧
    (medianOfThree arr a b c).Perm arr := by
  unfold medianOfThree
  rcases condSwap_spec arr a b ha hb with ⟨l1, f1, p1⟩
  rcases condSwap_spec (condSwap arr a b) b c (by omega) (by omega) with ⟨l2, f2, p2⟩
  rcases condSwap_spec (condSwap (condSwap arr a b) b c) a b (by omega) (by omega)
    with ⟨l3, f3, p3⟩
  have hlen3 : (condSwap (condSwap (condSwap arr a b) b c) a b).length = arr.length := by
    rw [l3, l2, l1]
  refine ⟨?_, ?_, ?_⟩
  · rw [length_swapE, hlen3]
  · intro k hka hkb hkc
    rw [getE_swapE _ a b k (by omega) (by omega)]
    simp only [if_neg hkb, if_neg hka]
    rw [f3 k hka hkb, f2 k hkb hkc, f1 k hka hkb]
  · exact (swapE_perm _ a b (by omega) (by omega)).trans ((p3.trans p2).trans p1)

/-- Invariant proof for the 3-way partition loop: given the standard
Dijkstra invariant (arr[low..lt-1] < pivot, arr[lt..i-1] = pivot,
arr[gt..high] > pivot) and enough fuel to drive i up to gt, the loop
permutes only the window [low, high] and ends with the three value zones
delimited by the returned lt and gt. -/
theorem p3wLoop_spec (pivot : Int) (low high : Nat) :
    ∀ (fuel : Nat) (arr : List Int) (lt i gt : Nat),
      gt ≤ fuel + i →
      high < arr.length →
      low ≤ lt → lt < i → i ≤ gt → gt ≤ high + 1 →
      (∀ k : Nat, low ≤ k → k < lt → getE arr k < pivot) →
      (∀ k : Nat, lt ≤ k → k < i → getE arr k = pivot) →
      (∀ k : Nat, gt ≤ k → k ≤ high → pivot < getE arr k) →
      (p3wLoop fuel arr pivot lt i gt).1.length = arr.length ∧
      (∀ k : Nat, k < low ∨ high < k →
        getE (p3wLoop fuel arr pivot lt i gt).1 k = getE arr k) ∧
      (p3wLoop fuel arr pivot lt i gt).1.Perm arr ∧
      low ≤ (p3wLoop fuel arr pivot lt i gt).2.1 ∧
      (p3wLoop fuel arr pivot lt i gt).2.1 < (p3wLoop fuel arr pivot lt i gt).2.2 ∧
      (p3wLoop fuel arr pivot lt i gt).2.2 ≤ high + 1 ∧
      (∀ k : Nat, low ≤ k → k < (p3wLoop fuel arr pivot lt i gt).2.1 →
        getE (p3wLoop fuel arr pivot lt i gt).1 k < pivot) ∧
      (∀ k : Nat, (p3wLoop fuel arr pivot lt i gt).2.1 ≤ k →
        k < (p3wLoop fuel arr pivot lt i gt).2.2 →
        getE (p3wLoop fuel arr pivot lt i gt).1 k = pivot) ∧
      (∀ k : Nat, (p3wLoop fuel arr pivot lt i gt).2.2 ≤ k → k ≤ high →
        pivot < getE (p3wLoop fuel arr pivot lt i gt).1 k) := by
  intro fuel
  induction fuel with
  | zero =>
    intro arr lt i gt hfuel hn hlt1 hlt2 hig hgh hless hequal hgreater
    have hieq : i = gt := by omega
    subst hieq
    exact ⟨rfl, fun k _ => rfl, List.Perm.refl _, show low ≤ lt by omega,
      show lt < i by omega, show i ≤ high + 1 by omega, hless, hequal, hgreater⟩
  | succ fuel ih =>
    intro arr lt i gt hfuel hn hlt1 hlt2 hig hgh hless hequal hgreater
    by_cases hig2 : i < gt
    · have hin : i < arr.length := by omega
      have hltn : lt < arr.length := by omega
      have hgtn : gt - 1 < arr.length := by omega
      by_cases h1 : getE arr i < pivot
      · have hswap := fun k => getE_swapE arr lt i k hltn hin
        have hless2 : ∀ k : Nat, low ≤ k → k < lt + 1 → getE (swapE arr lt i) k < pivot := by
          intro k hk1 hk2
          rw [hswap k]
          by_cases hki : k = i
          · omega
          · by_cases hklt : k = lt
            · simp only [if_neg hki, if_pos hklt]
              exact h1
            · simp only [if_neg hki, if_neg hklt]
              exact hless k hk1 (by omega)
        have hequal2 : ∀ k : Nat, lt + 1 ≤ k → k < i + 1 → getE (swapE arr lt i) k = pivot := by
          intro k hk1 hk2
          rw [hswap k]
          by_cases hki : k = i
          · subst hki
            simp only [if_pos rfl]
            exact hequal lt (by omega) (by omega)
          · by_cases hklt : k = lt
            · omega
            · simp only [if_neg hki, if_neg hklt]
              exact hequal k (by omega) (by omega)
        have hgreater2 : ∀ k : Nat, gt ≤ k → k ≤ high → pivot < getE (swapE arr lt i) k := by
          intro k hk1 hk2
          rw [hswap k]
          have hki : ¬ k = i := by omega
          have hklt : ¬ k = lt := by omega
          simp only [if_neg hki, if_neg hklt]
          exact hgreater k hk1 hk2
        have hrec := ih (swapE arr lt i) (lt + 1) (i + 1) gt (by omega)
          (by rw [length_swapE]; omega) (by omega) (by omega) (by omega) (by omega)
          hless2 hequal2 hgreater2
        rcases hrec with ⟨rlen, rframe, rperm, rb1, rb2, rb3, rless, requal, rgreater⟩
        simp only [p3wLoop, if_pos hig2, if_pos h1]
        refine ⟨rlen.trans (length_swapE ..), ?_, rperm.trans (swapE_perm arr lt i hltn hin),
          rb1, rb2, rb3, rless, requal, rgreater⟩
        intro k hk
        rw [rframe k hk, hswap k]
        have hki : ¬ k = i := by omega
        have hklt : ¬ k = lt := by omega
        simp [hki, hklt]
      · by_cases h2 : pivot < getE arr i
        · have hswap := fun k => getE_swapE arr i (gt - 1) k hin hgtn
          have hless2 : ∀ k : Nat, low ≤ k → k < lt → getE (swapE arr i (gt - 1)) k < pivot := by
            intro k hk1 hk2
            rw [hswap k]
            have hki : ¬ k = i := by omega
            have hkgt : ¬ k = gt - 1 := by omega
            simp only [if_neg hkgt, if_neg hki]
            exact hless k hk1 hk2
          have hequal2 : ∀ k : Nat, lt ≤ k → k < i → getE (swapE arr i (gt - 1)) k = pivot := by
            intro k hk1 hk2
            rw [hswap k]
            have hki : ¬ k = i := by omega
            have hkgt : ¬ k = gt - 1 := by omega
            simp only [if_neg hkgt, if_neg hki]
            exact hequal k hk1 hk2
          have hgreater2 : ∀ k : Nat, gt - 1 ≤ k → k ≤ high →
              pivot < getE (swapE arr i (gt - 1)) k := by
            intro k hk1 hk2
            rw [hswap k]
            by_cases hkgt : k = gt - 1
            · simp only [if_pos hkgt]
              exact h2
            · have hki : ¬ k = i := by omega
              simp only [if_neg hkgt, if_neg hki]
              exact hgreater k (by omega) hk2
          have hrec := ih (swapE arr i (gt - 1)) lt i (gt - 1) (by omega)
            (by rw [length_swapE]; omega) (by omega) (by omega) (by omega) (by omega)
            hless2 hequal2 hgreater2
          rcases hrec with ⟨rlen, rframe, rperm, rb1, rb2, rb3, rless, requal, rgreater⟩
          simp only [p3wLoop, if_pos hig2, if_neg h1, if_pos h2]
          refine ⟨rlen.trans (length_swapE ..), ?_,
            rperm.trans (swapE_perm arr i (gt - 1) hin hgtn),
            rb1, rb2, rb3, rless, requal, rgreater⟩
          intro k hk
          rw [rframe k hk, hswap k]
          have hki : ¬ k = i := by omega
          have hkgt : ¬ k = gt - 1 := by omega
          simp [hki, hkgt]
        · have hequal2 : ∀ k : Nat, lt ≤ k → k < i + 1 → getE arr k = pivot := by
            intro k hk1 hk2
            by_cases hki : k = i
            · subst hki
              omega
            · exact hequal k hk1 (by omega)
          have hrec := ih arr lt (i + 1) gt (by omega) hn (by omega) (by omega) (by omega)
            (by omega) hless hequal2 hgreater
          simp only [p3wLoop, if_pos hig2, if_neg h1, if_neg h2]
          exact hrec
    · have hieq : i = gt := by omega
      subst hieq
      have heq : p3wLoop (fuel + 1) arr pivot lt i i = (arr, lt, i) := by
        simp only [p3wLoop, if_neg hig2]
      rw [heq]
      exact ⟨rfl, fun k _ => rfl, List.Perm.refl _, show low ≤ lt by omega,
        show lt < i by omega, show i ≤ high + 1 by omega, hless, hequal, hgreater⟩

theorem sortedRange_of_sortedK (l : List Int) (low high : Nat)
    (hn : high < l.length)
    (h : SortedK (fun v : Int => v) (segc l low (high + 1 - low))) :
    sortedRange l low high := by
  intro i j hi hij hj
  rw [SortedK, List.pairwise_iff_getElem] at h
  have hlen : (segc l low (high + 1 - low)).length = high + 1 - low := by
    rw [length_segc]
    omega
  have hcall := h (i - low) (j - low) (by omega) (by omega) (by omega)
  rw [getElem_segc _ _ _ _ (by omega), getElem_segc _ _ _ _ (by omega)] at hcall
  rw [show low + (i - low) = i by omega, show low + (j - low) = j by omega] at hcall
  exact hcall

theorem sortedK_of_sortedRange (l : List Int) (low high : Nat)
    (hn : high < l.length)
    (h : sortedRange l low high) :
    SortedK (fun v : Int => v) (segc l low (high + 1 - low)) := by
  rw [SortedK, List.pairwise_iff_getElem]
  intro a b ha hb hab
  have hlen : (segc l low (high + 1 - low)).length = high + 1 - low := by
    rw [length_segc]
    omega
  rw [getElem_segc _ _ _ _ ha, getElem_segc _ _ _ _ hb]
  exact h (low + a) (low + b) (by omega) (by omega) (by omega)

theorem sortedRange_congr (l l' : List Int) (low high : Nat)
    (ha : ∀ k : Nat, low ≤ k → k ≤ high → getE l' k = getE l k)
    (h : sortedRange l low high) : sortedRange l' low high := by
  intro i j hi hij hj
  rw [ha i hi (by omega), ha j (by omega) hj]
  exact h i j hi hij hj

theorem sortedRange_trivial (l : List Int) (low high : Nat) (h : high ≤ low) :
    sortedRange l low high := by
  intro i j hi hij hj
  omega

/-- Two in-place sorts of the same range of the same array produce identical
arrays: a sorted permutation of a fixed multiset is unique, and outside the
range both agree with the input. -/
theorem eq_of_rangeSorts (arr res1 res2 : List Int) (low high : Nat)
    (hn : high < arr.length)
    (h1 : RangeSorts arr res1 low high) (h2 : RangeSorts arr res2 low high) :
    res1 = res2 := by
  rcases h1 with ⟨len1, frame1, perm1, sort1⟩
  rcases h2 with ⟨len2, frame2, perm2, sort2⟩
  have hs1 : (segc res1 low (high + 1 - low)).Perm (segc arr low (high + 1 - low)) :=
    segc_perm_of_perm arr res1 low (high + 1 - low) len1
      (fun k hk => frame1 k (by omega)) perm1
  have hs2 : (segc res2 low (high + 1 - low)).Perm (segc arr low (high + 1 - low)) :=
    segc_perm_of_perm arr res2 low (high + 1 - low) len2
      (fun k hk => frame2 k (by omega)) perm2
  have hsorted1 : List.Sorted (fun a b : Int => a ≤ b) (segc res1 low (high + 1 - low)) :=
    sortedK_of_sortedRange res1 low high (by omega) sort1
  have hsorted2 : List.Sorted (fun a b : Int => a ≤ b) (segc res2 low (high + 1 - low)) :=
    sortedK_of_sortedRange res2 low high (by omega) sort2
  have hseg : segc res1 low (high + 1 - low) = segc res2 low (high + 1 - low) :=
    List.eq_of_perm_of_sorted (hs1.trans hs2.symm) hsorted1 hsorted2
  apply List.ext_getElem (by omega)
  intro n hn1 hn2
  rw [← getE_eq_getElem, ← getE_eq_getElem]
  by_cases hin : low ≤ n ∧ n ≤ high
  · have e1 : getE res1 n = (segc res1 low (high + 1 - low)).getD (n - low) 0 := by
      have hl : n - low < (segc res1 low (high + 1 - low)).length := by
        rw [length_segc]
        omega
      rw [List.getD_eq_getElem _ _ hl, getElem_segc _ _ _ _ hl]
      congr 1
      omega
    have e2 : getE res2 n = (segc res2 low (high + 1 - low)).getD (n - low) 0 := by
      have hl : n - low < (segc res2 low (high + 1 - low)).length := by
        rw [length_segc]
        omega
      rw [List.getD_eq_getElem _ _ hl, getElem_segc _ _ _ _ hl]
      congr 1
      omega
    rw [e1, e2, hseg]
  · have hout : n < low ∨ high < n := by omega
    rw [frame1 n hout, frame2 n hout]

/-- Full partition3Way specification: permutes only [low, high] and splits it
into the three value zones delimited by the returned bounds. -/
theorem partition3Way_spec (arr : List Int) (low high : Nat)
    (hlh : low ≤ high) (hn : high < arr.length) :
    (partition3Way arr low high).1.length = arr.length ∧
    (∀ k : Nat, k < low ∨ high < k →
      getE (partition3Way arr low high).1 k = getE arr k) ∧
    (partition3Way arr low high).1.Perm arr ∧
    low ≤ (partition3Way arr low high).2.1 ∧
    (partition3Way arr low high).2.1 ≤ (partition3Way arr low high).2.2 ∧
    (partition3Way arr low high).2.2 ≤ high ∧
    (∃ pivot : Int,
      (∀ k : Nat, low ≤ k → k < (partition3Way arr low high).2.1 →
        getE (partition3Way arr low high).1 k < pivot) ∧
      (∀ k : Nat, (partition3Way arr low high).2.1 ≤ k →
        k ≤ (partition3Way arr low high).2.2 →
        getE (partition3Way arr low high).1 k = pivot) ∧
      (∀ k : Nat, (partition3Way arr low high).2.2 < k → k ≤ high →
        pivot < getE (partition3Way arr low high).1 k)) := by
  rcases medianOfThree_spec arr low ((low + high) / 2) high (by omega) (by omega) hn
    with ⟨mlen, mframe, mperm⟩
  have hloop := p3wLoop_spec (getE (medianOfThree arr low ((low + high) / 2) high) low)
    low high (high - low) (medianOfThree arr low ((low + high) / 2) high)
    low (low + 1) (high + 1)
    (by omega) (by omega) (by omega) (by omega) (by omega) (by omega)
    (by intro k hk1 hk2; omega)
    (by
      intro k hk1 hk2
      have hk : k = low := by omega
      rw [hk])
    (by intro k hk1 hk2; omega)
  rcases hloop with ⟨rlen, rframe, rperm, rb1, rb2, rb3, rless, requal, rgreater⟩
  have hunfold : partition3Way arr low high =
      ((p3wLoop (high - low) (medianOfThree arr low ((low + high) / 2) high)
          (getE (medianOfThree arr low ((low + high) / 2) high) low)
          low (low + 1) (high + 1)).1,
        (p3wLoop (high - low) (medianOfThree arr low ((low + high) / 2) high)
          (getE (medianOfThree arr low ((low + high) / 2) high) low)
          low (low + 1) (high + 1)).2.1,
        (p3wLoop (high - low) (medianOfThree arr low ((low + high) / 2) high)
          (getE (medianOfThree arr low ((low + high) / 2) high) low)
          low (low + 1) (high + 1)).2.2 - 1) := rfl
  rw [hunfold]
  dsimp only
  refine ⟨rlen.trans mlen, ?_, rperm.trans mperm, rb1, by omega, by omega, ?_⟩
  · intro k hk
    rw [rframe k hk]
    apply mframe k (by omega) ?_ (by omega)
    have hmid : (low + high) / 2 ≤ high := by omega
    omega
  · refine ⟨getE (medianOfThree arr low ((low + high) / 2) high) low, rless, ?_, ?_⟩
    · intro k hk1 hk2
      exact requal k hk1 (by omega)
    · intro k hk1 hk2
      exact rgreater k (by omega) hk2

/-- Ascending order of a partitioned range whose outer zones are sorted and
whose zones are value-separated by the pivot. -/
theorem sortedRange_of_zones (l : List Int) (low high lt gt : Nat) (pivot : Int)
    (pb1 : low ≤ lt) (pb2 : lt ≤ gt) (pb3 : gt ≤ high)
    (vL : ∀ k : Nat, low ≤ k → k < lt → getE l k < pivot)
    (vM : ∀ k : Nat, lt ≤ k → k ≤ gt → getE l k = pivot)
    (vR : ∀ k : Nat, gt < k → k ≤ high → pivot < getE l k)
    (sL : sortedRange l low (lt - 1))
    (sR : sortedRange l (gt + 1) high) :
    sortedRange l low high := by
  intro i j hi hij hj
  by_cases hi1 : i < lt
  · by_cases hj1 : j < lt
    · exact sL i j hi hij (by omega)
    · by_cases hj2 : j ≤ gt
      · rw [vM j (by omega) hj2]
        exact le_of_lt (vL i hi hi1)
      · exact le_of_lt (lt_trans (vL i hi hi1) (vR j (by omega) hj))
  · by_cases hi2 : i ≤ gt
    · by_cases hj2 : j ≤ gt
      · rw [vM i (by omega) hi2, vM j (by omega) hj2]
      · rw [vM i (by omega) hi2]
        exact le_of_lt (vR j (by omega) hj)
    · exact sR i j (by omega) hij hj

/-- Assembling a partitioned quicksort step in which the left zone is
processed first (on l1, giving l2) and the right zone second (on l2, giving
l3).  The lt = 0 premise covers the empty left zone whose Go bounds
[low, lt-1] would be [0, -1]: the recursive call leaves the array unchanged. -/
theorem assemble_left_first
    (arr l1 l2 l3 : List Int) (low high lt gt : Nat) (pivot : Int)
    (hlh : low < high) (hn : high < arr.length)
    (plen : l1.length = arr.length)
    (pframe : ∀ k : Nat, k < low ∨ high < k → getE l1 k = getE arr k)
    (pperm : l1.Perm arr)
    (pb1 : low ≤ lt) (pb2 : lt ≤ gt) (pb3 : gt ≤ high)
    (pless : ∀ k : Nat, low ≤ k → k < lt → getE l1 k < pivot)
    (pequal : ∀ k : Nat, lt ≤ k → k ≤ gt → getE l1 k = pivot)
    (pgreater : ∀ k : Nat, gt < k → k ≤ high → pivot < getE l1 k)
    (hL : RangeSorts l1 l2 low (lt - 1))
    (hL0 : lt = 0 → l2 = l1)
    (hR : RangeSorts l2 l3 (gt + 1) high) :
    RangeSorts arr l3 low high := by
  rcases hL with ⟨Llen, Lframe, Lperm, Lsort⟩
  rcases hR with ⟨Rlen, Rframe, Rperm, Rsort⟩
  have Lframe2 : ∀ k : Nat, lt ≤ k → getE l2 k = getE l1 k := by
    intro k hk
    by_cases h0 : lt = 0
    · rw [hL0 h0]
    · exact Lframe k (Or.inr (by omega))
  have Lframe3 : ∀ k : Nat, k < low → getE l2 k = getE l1 k := by
    intro k hk
    by_cases h0 : lt = 0
    · rw [hL0 h0]
    · exact Lframe k (Or.inl hk)
  have Rframe2 : ∀ k : Nat, k ≤ gt → getE l3 k = getE l2 k := by
    intro k hk
    exact Rframe k (Or.inl (by omega))
  have vL2 : ∀ k : Nat, low ≤ k → k < lt → getE l2 k < pivot := by
    by_cases h0 : lt = 0
    · intro k hk1 hk2
      omega
    · have := segc_value_transfer l1 l2 low (lt - low) (fun v => v < pivot)
        (by omega) Llen
        (by
          intro k hk
          by_cases hkl : k < low
          · exact Lframe3 k hkl
          · exact Lframe2 k (by omega))
        Lperm
        (by
          intro k hk1 hk2
          exact pless k hk1 (by omega))
      intro k hk1 hk2
      exact this k hk1 (by omega)
  have vM2 : ∀ k : Nat, lt ≤ k → k ≤ gt → getE l2 k = pivot := by
    intro k hk1 hk2
    rw [Lframe2 k hk1]
    exact pequal k hk1 hk2
  have vR2 : ∀ k : Nat, gt < k → k ≤ high → pivot < getE l2 k := by
    intro k hk1 hk2
    rw [Lframe2 k (by omega)]
    exact pgreater k hk1 hk2
  have vL3 : ∀ k : Nat, low ≤ k → k < lt → getE l3 k < pivot := by
    intro k hk1 hk2
    rw [Rframe2 k (by omega)]
    exact vL2 k hk1 hk2
  have vM3 : ∀ k : Nat, lt ≤ k → k ≤ gt → getE l3 k = pivot := by
    intro k hk1 hk2
    rw [Rframe2 k hk2]
    exact vM2 k hk1 hk2
  have vR3 : ∀ k : Nat, gt < k → k ≤ high → pivot < getE l3 k := by
    have := segc_value_transfer l2 l3 (gt + 1) (high - gt) (fun v => pivot < v)
      (by
        rw [Llen, plen]
        omega)
      Rlen
      (by
        intro k hk
        apply Rframe k
        omega)
      Rperm
      (by
        intro k hk1 hk2
        exact vR2 k (by omega) (by omega))
    intro k hk1 hk2
    exact this k (by omega) (by omega)
  have sortL3 : sortedRange l3 low (lt - 1) := by
    apply sortedRange_congr l2 l3 low (lt - 1) _ Lsort
    intro k hk1 hk2
    exact Rframe2 k (by omega)
  refine ⟨(Rlen.trans Llen).trans plen, ?_, (Rperm.trans Lperm).trans pperm, ?_⟩
  · intro k hk
    have h3 : getE l3 k = getE l2 k := by
      apply Rframe k
      omega
    have h2 : getE l2 k = getE l1 k := by
      rcases hk with hk | hk
      · exact Lframe3 k hk
      · exact Lframe2 k (by omega)
    rw [h3, h2]
    exact pframe k hk
  · exact sortedRange_of_zones l3 low high lt gt pivot pb1 pb2 pb3 vL3 vM3 vR3
      sortL3 Rsort

/-- Assembling a partitioned quicksort step in which the right zone is
processed first (on l1, giving l2) and the left zone second (on l2, giving
l3). -/
theorem assemble_right_first
    (arr l1 l2 l3 : List Int) (low high lt gt : Nat) (pivot : Int)
    (hlh : low < high) (hn : high < arr.length)
    (plen : l1.length = arr.length)
    (pframe : ∀ k : Nat, k < low ∨ high < k → getE l1 k = getE arr k)
    (pperm : l1.Perm arr)
    (pb1 : low ≤ lt) (pb2 : lt ≤ gt) (pb3 : gt ≤ high)
    (pless : ∀ k : Nat, low ≤ k → k < lt → getE l1 k < pivot)
    (pequal : ∀ k : Nat, lt ≤ k → k ≤ gt → getE l1 k = pivot)
    (pgreater : ∀ k : Nat, gt < k → k ≤ high → pivot < getE l1 k)
    (hR : RangeSorts l1 l2 (gt + 1) high)
    (hL : RangeSorts l2 l3 low (lt - 1))
    (hL0 : lt = 0 → l3 = l2) :
    RangeSorts arr l3 low high := by
  rcases hR with ⟨Rlen, Rframe, Rperm, Rsort⟩
  rcases hL with ⟨Llen, Lframe, Lperm, Lsort⟩
  have Rframe2 : ∀ k : Nat, k ≤ gt → getE l2 k = getE l1 k := by
    intro k hk
    exact Rframe k (Or.inl (by omega))
  have Lframe2 : ∀ k : Nat, lt ≤ k → getE l3 k = getE l2 k := by
    intro k hk
    by_cases h0 : lt = 0
    · rw [hL0 h0]
    · exact Lframe k (Or.inr (by omega))
  have Lframe3 : ∀ k : Nat, k < low → getE l3 k = getE l2 k := by
    intro k hk
    by_cases h0 : lt = 0
    · rw [hL0 h0]
    · exact Lframe k (Or.inl hk)
  have vL2 : ∀ k : Nat, low ≤ k → k < lt → getE l2 k < pivot := by
    intro k hk1 hk2
    rw [Rframe2 k (by omega)]
    exact pless k hk1 hk2
  have vM2 : ∀ k : Nat, lt ≤ k → k ≤ gt → getE l2 k = pivot := by
    intro k hk1 hk2
    rw [Rframe2 k hk2]
    exact pequal k hk1 hk2
  have vR2 : ∀ k : Nat, gt < k → k ≤ high → pivot < getE l2 k := by
    have := segc_value_transfer l1 l2 (gt + 1) (high - gt) (fun v => pivot < v)
      (by
        rw [plen]
        omega)
      Rlen
      (by
        intro k hk
        apply Rframe k
        omega)
      Rperm
      (by
        intro k hk1 hk2
        exact pgreater k (by omega) (by omega))
    intro k hk1 hk2
    exact this k (by omega) (by omega)
  have vL3 : ∀ k : Nat, low ≤ k → k < lt → getE l3 k < pivot := by
    by_cases h0 : lt = 0
    · intro k hk1 hk2
      omega
    · have := segc_value_transfer l2 l3 low (lt - low) (fun v => v < pivot)
        (by
          rw [Rlen, plen]
          omega)
        Llen
        (by
          intro k hk
          by_cases hkl : k < low
          · exact Lframe3 k hkl
          · exact Lframe2 k (by omega))
        Lperm
        (by
          intro k hk1 hk2
          exact vL2 k hk1 (by omega))
      intro k hk1 hk2
      exact this k hk1 (by omega)
  have vM3 : ∀ k : Nat, lt ≤ k → k ≤ gt → getE l3 k = pivot := by
    intro k hk1 hk2
    rw [Lframe2 k hk1]
    exact vM2 k hk1 hk2
  have vR3 : ∀ k : Nat, gt < k → k ≤ high → pivot < getE l3 k := by
    intro k hk1 hk2
    rw [Lframe2 k (by omega)]
    exact vR2 k hk1 hk2
  have sortR3 : sortedRange l3 (gt + 1) high := by
    apply sortedRange_congr l2 l3 (gt + 1) high _ Rsort
    intro k hk1 hk2
    exact Lframe2 k (by omega)
  refine ⟨(Llen.trans Rlen).trans plen, ?_, (Lperm.trans Rperm).trans pperm, ?_⟩
  · intro k hk
    have h3 : getE l3 k = getE l2 k := by
      rcases hk with hk | hk
      · exact Lframe3 k hk
      · exact Lframe2 k (by omega)
    have h2 : getE l2 k = getE l1 k := by
      apply Rframe k
      omega
    rw [h3, h2]
    exact pframe k hk
  · exact sortedRange_of_zones l3 low high lt gt pivot pb1 pb2 pb3 vL3 vM3 vR3
      Lsort sortR3

theorem qsHelperF_id (fuel : Nat) (arr : List Int) (low high : Nat)
    (h : ¬ low < high) : qsHelperF fuel arr low high = arr := by
  cases fuel with
  | zero => rfl
  | succ fuel => simp only [qsHelperF, if_neg h]

theorem insertionSort_rangeSorts (arr : List Int) (low high : Nat)
    (hn : high < arr.length) :
    RangeSorts arr (insertionSort arr low high) low high := by
  rcases insertionSortG_spec (fun v : Int => v) arr low high hn
    with ⟨ilen, iframe, isort, _ifilt, iperm⟩
  have hlen2 : (insertionSort arr low high).length = arr.length := ilen
  exact ⟨ilen, iframe, iperm,
    sortedRange_of_sortedK _ low high (by rw [hlen2]; omega) isort⟩

/-- Main correctness of the hybrid sequential quicksort helper: with fuel at
least the range size it sorts arr[low..high] in place, permuting only that
window. -/
theorem qsHelperF_spec : ∀ (fuel : Nat) (arr : List Int) (low high : Nat),
    high + 1 - low ≤ fuel → (low < high → high < arr.length) →
    RangeSorts arr (qsHelperF fuel arr low high) low high := by
  intro fuel
  induction fuel with
  | zero =>
    intro arr low high hfuel hn
    exact ⟨rfl, fun k _ => rfl, List.Perm.refl _, sortedRange_trivial arr low high (by omega)⟩
  | succ fuel ih =>
    intro arr low high hfuel hcond
    by_cases hlh : low < high
    · have hn : high < arr.length := hcond hlh
      by_cases h16 : high - low + 1 ≤ 16
      · have heq : qsHelperF (fuel + 1) arr low high = insertionSort arr low high := by
          simp only [qsHelperF, if_pos hlh, if_pos h16]
        rw [heq]
        exact insertionSort_rangeSorts arr low high hn
      · rcases partition3Way_spec arr low high (by omega) hn
          with ⟨plen, pframe, pperm, pb1, pb2, pb3, pivot, pless, pequal, pgreater⟩
        by_cases hbr : ((partition3Way arr low high).2.1 : Int) - low <
            (high : Int) - (partition3Way arr low high).2.2
        · have heq : qsHelperF (fuel + 1) arr low high =
              qsHelperF fuel
                (qsHelperF fuel (partition3Way arr low high).1 low
                  ((partition3Way arr low high).2.1 - 1))
                ((partition3Way arr low high).2.2 + 1) high := by
            simp only [qsHelperF, if_pos hlh, if_neg h16, if_pos hbr]
          rw [heq]
          have hL := ih (partition3Way arr low high).1 low
            ((partition3Way arr low high).2.1 - 1)
            (by omega) (by intro h2; rw [plen]; omega)
          have hL0 : (partition3Way arr low high).2.1 = 0 →
              qsHelperF fuel (partition3Way arr low high).1 low
                ((partition3Way arr low high).2.1 - 1) = (partition3Way arr low high).1 := by
            intro h0
            exact qsHelperF_id fuel _ low _ (by omega)
          have hR := ih (qsHelperF fuel (partition3Way arr low high).1 low
              ((partition3Way arr low high).2.1 - 1))
            ((partition3Way arr low high).2.2 + 1) high
            (by omega)
            (by
              intro h2
              rcases hL with ⟨l2len, _, _, _⟩
              rw [l2len, plen]
              omega)
          exact assemble_left_first arr (partition3Way arr low high).1 _ _ low high
            (partition3Way arr low high).2.1 (partition3Way arr low high).2.2 pivot
            hlh hn plen pframe pperm pb1 pb2 pb3 pless pequal pgreater hL hL0 hR
        · have heq : qsHelperF (fuel + 1) arr low high =
              qsHelperF fuel
                (qsHelperF fuel (partition3Way arr low high).1
                  ((partition3Way arr low high).2.2 + 1) high)
                low ((partition3Way arr low high).2.1 - 1) := by
            simp only [qsHelperF, if_pos hlh, if_neg h16, if_neg hbr]
          rw [heq]
          have hR := ih (partition3Way arr low high).1
            ((partition3Way arr low high).2.2 + 1) high
            (by omega) (by intro h2; rw [plen]; omega)
          have hL := ih (qsHelperF fuel (partition3Way arr low high).1
              ((partition3Way arr low high).2.2 + 1) high)
            low ((partition3Way arr low high).2.1 - 1)
            (by omega)
            (by
              intro h2
              rcases hR with ⟨l2len, _, _, _⟩
              rw [l2len, plen]
              omega)
          have hL0 : (partition3Way arr low high).2.1 = 0 →
              qsHelperF fuel
                (qsHelperF fuel (partition3Way arr low high).1
                  ((partition3Way arr low high).2.2 + 1) high)
                low ((partition3Way arr low high).2.1 - 1) =
              qsHelperF fuel (partition3Way arr low high).1
                ((partition3Way arr low high).2.2 + 1) high := by
            intro h0
            exact qsHelperF_id fuel _ low _ (by omega)
          exact assemble_right_first arr (partition3Way arr low high).1 _ _ low high
            (partition3Way arr low high).2.1 (partition3Way arr low high).2.2 pivot
            hlh hn plen pframe pperm pb1 pb2 pb3 pless pequal pgreater hR hL hL0
    · rw [qsHelperF_id (fuel + 1) arr low high hlh]
      exact ⟨rfl, fun k _ => rfl, List.Perm.refl _,
        sortedRange_trivial arr low high (by omega)⟩

theorem quickSortHelper_spec (arr : List Int) (low high : Nat)
    (hcond : low < high → high < arr.length) :
    RangeSorts arr (quickSortHelper arr low high) low high :=
  qsHelperF_spec (high + 1 - low) arr low high (by omega) hcond

theorem quickSortHelper_id (arr : List Int) (low high : Nat)
    (h : ¬ low < high) : quickSortHelper arr low high = arr :=
  qsHelperF_id (high + 1 - low) arr low high h

/-- quickSort sorts the whole array in place. -/
theorem quickSort_spec (arr : List Int) :
    RangeSorts arr (quickSort arr) 0 (arr.length - 1) := by
  unfold quickSort
  split
  · refine ⟨rfl, fun k _ => rfl, List.Perm.refl _, ?_⟩
    intro i j hi hij hj
    omega
  · exact quickSortHelper_spec arr 0 (arr.length - 1) (fun _ => by omega)

theorem mergeSort_spec (arr : List Int) :
    (mergeSort arr).Perm arr ∧ SortedK (fun v : Int => v) (mergeSort arr) := by
  rcases mergeSortG_spec (fun v : Int => v) arr.length arr (le_refl _) with ⟨p, s, _⟩
  exact ⟨p, s⟩

theorem sortedK_id_pairs (l : List Int)
    (h : SortedK (fun v : Int => v) l) :
    ∀ i j : Nat, i < j → j < l.length → getE l i ≤ getE l j := by
  intro i j hij hj
  rw [SortedK, List.pairwise_iff_getElem] at h
  rw [getE_eq_getElem l i (by omega), getE_eq_getElem l j hj]
  exact h i j (by omega) hj hij

theorem tryAcquire_cases (σ : GateSt) (lo hi : Int) :
    ((tryAcquire σ lo hi).1 = true ∧ (tryAcquire σ lo hi).2.1.occ = σ.occ + 1 ∧
      (tryAcquire σ lo hi).2.1.cap = σ.cap ∧
      (tryAcquire σ lo hi).2.2 = Ev.acqOk lo hi) ∨
    ((tryAcquire σ lo hi).1 = false ∧ (tryAcquire σ lo hi).2.1.occ = σ.occ ∧
      (tryAcquire σ lo hi).2.1.cap = σ.cap ∧
      (tryAcquire σ lo hi).2.2 = Ev.acqFail lo hi) := by
  rcases σ with ⟨o, c, ora⟩
  cases ora with
  | nil => right; simp [tryAcquire]
  | cons b rest =>
    by_cases hcond : b = true ∧ o < c
    · left
      simp [tryAcquire, if_pos hcond]
    · right
      simp [tryAcquire, if_neg hcond]

theorem relCount_append (l1 l2 : List Ev) :
    relCount (l1 ++ l2) = relCount l1 + relCount l2 := List.countP_append ..

theorem okCount_append (l1 l2 : List Ev) :
    okCount (l1 ++ l2) = okCount l1 + okCount l2 := List.countP_append ..

theorem acqCount_append (l1 l2 : List Ev) :
    acqCount (l1 ++ l2) = acqCount l1 + acqCount l2 := List.countP_append ..

/-- Specification of one forked branch: for any gate state and oracle it
establishes the sequential helper's in-place sorting bundle on its zone,
restores occupancy and capacity, and (counting its own acquisition attempt)
pairs releases with successful acquisitions.  The last argument is the
induction hypothesis for the recursive scheduler at the branch's fuel. -/
theorem qsBranch_spec (fuel : Nat) (x : List Int) (zl zh depth : Nat) (τ : GateSt)
    (lo hi : Int)
    (hfuel : zh + 1 - zl ≤ fuel) (hcond : zl < zh → zh < x.length)
    (ih : ∀ (arr2 : List Int) (low2 high2 depth2 : Nat) (σ2 : GateSt),
      high2 + 1 - low2 ≤ fuel → (low2 < high2 → high2 < arr2.length) →
      RangeSorts arr2 (prlQuickSortHelper fuel arr2 low2 high2 depth2 σ2).1 low2 high2 ∧
      (¬ low2 < high2 → (prlQuickSortHelper fuel arr2 low2 high2 depth2 σ2).1 = arr2) ∧
      (prlQuickSortHelper fuel arr2 low2 high2 depth2 σ2).2.1.occ = σ2.occ ∧
      (prlQuickSortHelper fuel arr2 low2 high2 depth2 σ2).2.1.cap = σ2.cap ∧
      relCount (prlQuickSortHelper fuel arr2 low2 high2 depth2 σ2).2.2 =
        okCount (prlQuickSortHelper fuel arr2 low2 high2 depth2 σ2).2.2) :
    RangeSorts x (qsBranch fuel x zl zh depth τ lo hi).1 zl zh ∧
    (¬ zl < zh → (qsBranch fuel x zl zh depth τ lo hi).1 = x) ∧
    (qsBranch fuel x zl zh depth τ lo hi).2.1.occ = τ.occ ∧
    (qsBranch fuel x zl zh depth τ lo hi).2.1.cap = τ.cap ∧
    relCount ((tryAcquire τ lo hi).2.2 :: (qsBranch fuel x zl zh depth τ lo hi).2.2) =
      okCount ((tryAcquire τ lo hi).2.2 :: (qsBranch fuel x zl zh depth τ lo hi).2.2) := by
  rcases tryAcquire_cases τ lo hi with ⟨hb, ho, hc, he⟩ | ⟨hb, ho, hc, he⟩
  · have heq : qsBranch fuel x zl zh depth τ lo hi =
        ((prlQuickSortHelper fuel x zl zh depth (tryAcquire τ lo hi).2.1).1,
         release (prlQuickSortHelper fuel x zl zh depth (tryAcquire τ lo hi).2.1).2.1,
         (prlQuickSortHelper fuel x zl zh depth (tryAcquire τ lo hi).2.1).2.2 ++ [Ev.rel]) := by
      simp only [qsBranch, hb, if_true]
    rcases ih x zl zh depth (tryAcquire τ lo hi).2.1 hfuel hcond
      with ⟨rb, rid, rocc, rcap, rcnt⟩
    rw [heq]
    refine ⟨rb, rid, ?_, ?_, ?_⟩
    · have hrel : (release (prlQuickSortHelper fuel x zl zh depth
          (tryAcquire τ lo hi).2.1).2.1).occ =
          (prlQuickSortHelper fuel x zl zh depth (tryAcquire τ lo hi).2.1).2.1.occ - 1 := rfl
      rw [hrel, rocc, ho]
      omega
    · have hrel : (release (prlQuickSortHelper fuel x zl zh depth
          (tryAcquire τ lo hi).2.1).2.1).cap =
          (prlQuickSortHelper fuel x zl zh depth (tryAcquire τ lo hi).2.1).2.1.cap := rfl
      rw [hrel, rcap, hc]
    · rw [he]
      simp only [relCount, okCount, List.countP_cons, List.countP_append] at rcnt ⊢
      simp only [List.countP_nil]
      omega
  · have heq : qsBranch fuel x zl zh depth τ lo hi =
        (quickSortHelper x zl zh, (tryAcquire τ lo hi).2.1, ([] : List Ev)) := by
      simp only [qsBranch, hb, Bool.false_eq_true, if_false]
    rw [heq]
    refine ⟨quickSortHelper_spec x zl zh hcond, fun h => quickSortHelper_id x zl zh h,
      ho, hc, ?_⟩
    rw [he]
    simp [relCount, okCount, List.countP_cons]

theorem prlQuickSortHelper_fork_eq (fuel : Nat) (arr : List Int)
    (low high depth : Nat) (σ : GateSt) (hlh : low < high)
    (hdel : ¬ (depth ≤ 1 ∨ high - low + 1 ≤ getOptimalThreshold arr.length (high - low + 1))) :
    prlQuickSortHelper (fuel + 1) arr low high depth σ =
      ((qsFork2 fuel arr low high depth σ).1,
       (qsFork2 fuel arr low high depth σ).2.1,
       Ev.call (high - low + 1) (getOptimalThreshold arr.length (high - low + 1)) ::
         (tryAcquire σ (low : Int) (((partition3Way arr low high).2.1 : Int) - 1)).2.2 ::
         ((qsFork1 fuel arr low high depth σ).2.2 ++
           (tryAcquire (qsFork1 fuel arr low high depth σ).2.1
             (((partition3Way arr low high).2.2 : Int) + 1) (high : Int)).2.2 ::
           (qsFork2 fuel arr low high depth σ).2.2)) := by
  simp only [prlQuickSortHelper, qsFork1, qsFork2, qsBranch, if_pos hlh, if_neg hdel]

/-- Specification of the sequentialized parallel quicksort scheduler: for
every depth budget, every gate state and every oracle, it establishes the
same in-place sorting bundle as the sequential helper, leaves occupancy and
capacity of the gate exactly as found, and its trace pairs every successful
acquisition with exactly one release. -/
theorem prlQuickSortHelper_spec :
    ∀ (fuel : Nat) (arr : List Int) (low high depth : Nat) (σ : GateSt),
      high + 1 - low ≤ fuel → (low < high → high < arr.length) →
      RangeSorts arr (prlQuickSortHelper fuel arr low high depth σ).1 low high ∧
      (¬ low < high → (prlQuickSortHelper fuel arr low high depth σ).1 = arr) ∧
      (prlQuickSortHelper fuel arr low high depth σ).2.1.occ = σ.occ ∧
      (prlQuickSortHelper fuel arr low high depth σ).2.1.cap = σ.cap ∧
      relCount (prlQuickSortHelper fuel arr low high depth σ).2.2 =
        okCount (prlQuickSortHelper fuel arr low high depth σ).2.2 := by
  intro fuel
  induction fuel with
  | zero =>
    intro arr low high depth σ hfuel hcond
    exact ⟨⟨rfl, fun k _ => rfl, List.Perm.refl _,
      sortedRange_trivial arr low high (by omega)⟩, fun _ => rfl, rfl, rfl, rfl⟩
  | succ fuel ih =>
    intro arr low high depth σ hfuel hcond
    by_cases hlh : low < high
    · have hn : high < arr.length := hcond hlh
      by_cases hdel : depth ≤ 1 ∨ high - low + 1 ≤ getOptimalThreshold arr.length (high - low + 1)
      · have heq : prlQuickSortHelper (fuel + 1) arr low high depth σ =
            (quickSortHelper arr low high, σ,
              [Ev.call (high - low + 1) (getOptimalThreshold arr.length (high - low + 1))]) := by
          simp only [prlQuickSortHelper, if_pos hlh, if_pos hdel]
        rw [heq]
        refine ⟨quickSortHelper_spec arr low high hcond, fun h => absurd hlh h, rfl, rfl, ?_⟩
        simp [relCount, okCount, List.countP_cons]
      · rcases partition3Way_spec arr low high (by omega) hn
          with ⟨plen, pframe, pperm, pb1, pb2, pb3, pivot, pless, pequal, pgreater⟩
        rw [prlQuickSortHelper_fork_eq fuel arr low high depth σ hlh hdel]
        have hf2 : qsFork2 fuel arr low high depth σ =
            qsBranch fuel (qsFork1 fuel arr low high depth σ).1
              ((partition3Way arr low high).2.2 + 1) high (depth / 2)
              (qsFork1 fuel arr low high depth σ).2.1
              (((partition3Way arr low high).2.2 : Int) + 1) (high : Int) := rfl
        have hf1 : qsFork1 fuel arr low high depth σ =
            qsBranch fuel (partition3Way arr low high).1 low
              ((partition3Way arr low high).2.1 - 1) (depth / 2) σ (low : Int)
              (((partition3Way arr low high).2.1 : Int) - 1) := rfl
        rw [hf2, hf1]
        have h1 := qsBranch_spec fuel (partition3Way arr low high).1 low
          ((partition3Way arr low high).2.1 - 1) (depth / 2) σ (low : Int)
          (((partition3Way arr low high).2.1 : Int) - 1)
          (by omega) (by intro h2; rw [plen]; omega) ih
        rcases h1 with ⟨B1b, B1id, B1occ, B1cap, B1cnt⟩
        have hlen2 : (qsBranch fuel (partition3Way arr low high).1 low
            ((partition3Way arr low high).2.1 - 1) (depth / 2) σ (low : Int)
            (((partition3Way arr low high).2.1 : Int) - 1)).1.length = arr.length := by
          rcases B1b with ⟨l2len, _, _, _⟩
          rw [l2len, plen]
        have h2 := qsBranch_spec fuel
          (qsBranch fuel (partition3Way arr low high).1 low
            ((partition3Way arr low high).2.1 - 1) (depth / 2) σ (low : Int)
            (((partition3Way arr low high).2.1 : Int) - 1)).1
          ((partition3Way arr low high).2.2 + 1) high (depth / 2)
          (qsBranch fuel (partition3Way arr low high).1 low
            ((partition3Way arr low high).2.1 - 1) (depth / 2) σ (low : Int)
            (((partition3Way arr low high).2.1 : Int) - 1)).2.1
          (((partition3Way arr low high).2.2 : Int) + 1) (high : Int)
          (by omega) (by intro h3; rw [hlen2]; omega) ih
        rcases h2 with ⟨B2b, _B2id, B2occ, B2cap, B2cnt⟩
        refine ⟨?_, fun h => absurd hlh h, ?_, ?_, ?_⟩
        · exact assemble_left_first arr (partition3Way arr low high).1 _ _ low high
            (partition3Way arr low high).2.1 (partition3Way arr low high).2.2 pivot
            hlh hn plen pframe pperm pb1 pb2 pb3 pless pequal pgreater B1b
            (fun h0 => B1id (by omega)) B2b
        · rw [B2occ, B1occ]
        · rw [B2cap, B1cap]
        · simp only [relCount, okCount, List.countP_cons, List.countP_append] at B1cnt B2cnt ⊢
          omega
    · have heq : prlQuickSortHelper (fuel + 1) arr low high depth σ =
          (arr, σ,
            [Ev.call (high - low + 1) (getOptimalThreshold arr.length (high - low + 1))]) := by
        simp only [prlQuickSortHelper, if_neg hlh]
      rw [heq]
      refine ⟨⟨rfl, fun k _ => rfl, List.Perm.refl _,
        sortedRange_trivial arr low high (by omega)⟩, fun _ => rfl, rfl, rfl, ?_⟩
      simp [relCount, okCount, List.countP_cons]

/-- The sequentialized parallel quicksort helper computes exactly the final
array contents of the sequential helper, for every depth budget, gate state
and oracle: both leave a sorted permutation of the window and touch nothing
else, and such a result is unique. -/
theorem prlQuickSortHelper_eq (fuel : Nat) (arr : List Int) (low high depth : Nat)
    (σ : GateSt) (hfuel : high + 1 - low ≤ fuel)
    (hcond : low < high → high < arr.length) :
    (prlQuickSortHelper fuel arr low high depth σ).1 = quickSortHelper arr low high := by
  by_cases hlh : low < high
  · exact eq_of_rangeSorts arr _ _ low high (hcond hlh)
      (prlQuickSortHelper_spec fuel arr low high depth σ hfuel hcond).1
      (quickSortHelper_spec arr low high hcond)
  · rw [(prlQuickSortHelper_spec fuel arr low high depth σ hfuel hcond).2.1 hlh,
      quickSortHelper_id arr low high hlh]

theorem parallelQuickSort_eq (ncpu : Nat) (arr : List Int) (σ : GateSt) :
    (parallelQuickSort ncpu arr σ).1 = quickSort arr := by
  unfold parallelQuickSort quickSort
  by_cases hc : arr.length < 2
  · simp only [if_pos hc]
  · simp only [if_neg hc]
    exact prlQuickSortHelper_eq arr.length arr 0 (arr.length - 1) ncpu σ
      (by omega) (fun _ => by omega)

theorem parallelQuickSort_gate (ncpu : Nat) (arr : List Int) (σ : GateSt) :
    (parallelQuickSort ncpu arr σ).2.1.occ = σ.occ ∧
    (parallelQuickSort ncpu arr σ).2.1.cap = σ.cap ∧
    relCount (parallelQuickSort ncpu arr σ).2.2 =
      okCount (parallelQuickSort ncpu arr σ).2.2 := by
  unfold parallelQuickSort
  by_cases hc : arr.length < 2
  · have heq : (if arr.length < 2 then (arr, σ, ([] : List Ev))
        else prlQuickSortHelper arr.length arr 0 (arr.length - 1) ncpu σ) =
        (arr, σ, ([] : List Ev)) := if_pos hc
    rw [heq]
    exact ⟨rfl, rfl, rfl⟩
  · simp only [if_neg hc]
    have h := prlQuickSortHelper_spec arr.length arr 0 (arr.length - 1) ncpu σ
      (by omega) (fun _ => by omega)
    exact ⟨h.2.2.1, h.2.2.2.1, h.2.2.2.2⟩

theorem msBranch_spec (fuel : Nat) (x : List Int) (depth : Nat) (τ : GateSt)
    (lo hi : Int) (hfuel : x.length ≤ fuel)
    (ih : ∀ (arr2 : List Int) (depth2 : Nat) (σ2 : GateSt), arr2.length ≤ fuel →
      (prlMergeSortHelper fuel arr2 depth2 σ2).1.Perm arr2 ∧
      SortedK (fun v : Int => v) (prlMergeSortHelper fuel arr2 depth2 σ2).1 ∧
      (prlMergeSortHelper fuel arr2 depth2 σ2).2.1.occ = σ2.occ ∧
      (prlMergeSortHelper fuel arr2 depth2 σ2).2.1.cap = σ2.cap ∧
      relCount (prlMergeSortHelper fuel arr2 depth2 σ2).2.2 =
        okCount (prlMergeSortHelper fuel arr2 depth2 σ2).2.2) :
    (msBranch fuel x depth τ lo hi).1.Perm x ∧
    SortedK (fun v : Int => v) (msBranch fuel x depth τ lo hi).1 ∧
    (msBranch fuel x depth τ lo hi).2.1.occ = τ.occ ∧
    (msBranch fuel x depth τ lo hi).2.1.cap = τ.cap ∧
    relCount ((tryAcquire τ lo hi).2.2 :: (msBranch fuel x depth τ lo hi).2.2) =
      okCount ((tryAcquire τ lo hi).2.2 :: (msBranch fuel x depth τ lo hi).2.2) := by
  rcases tryAcquire_cases τ lo hi with ⟨hb, ho, hc, he⟩ | ⟨hb, ho, hc, he⟩
  · have heq : msBranch fuel x depth τ lo hi =
        ((prlMergeSortHelper fuel x depth (tryAcquire τ lo hi).2.1).1,
         release (prlMergeSortHelper fuel x depth (tryAcquire τ lo hi).2.1).2.1,
         (prlMergeSortHelper fuel x depth (tryAcquire τ lo hi).2.1).2.2 ++ [Ev.rel]) := by
      simp only [msBranch, hb, if_true]
    rcases ih x depth (tryAcquire τ lo hi).2.1 hfuel with ⟨rp, rs, rocc, rcap, rcnt⟩
    rw [heq]
    refine ⟨rp, rs, ?_, ?_, ?_⟩
    · have hrel : (release (prlMergeSortHelper fuel x depth
          (tryAcquire τ lo hi).2.1).2.1).occ =
          (prlMergeSortHelper fuel x depth (tryAcquire τ lo hi).2.1).2.1.occ - 1 := rfl
      rw [hrel, rocc, ho]
      omega
    · have hrel : (release (prlMergeSortHelper fuel x depth
          (tryAcquire τ lo hi).2.1).2.1).cap =
          (prlMergeSortHelper fuel x depth (tryAcquire τ lo hi).2.1).2.1.cap := rfl
      rw [hrel, rcap, hc]
    · rw [he]
      simp only [relCount, okCount, List.countP_cons, List.countP_append] at rcnt ⊢
      simp only [List.countP_nil]
      omega
  · have heq : msBranch fuel x depth τ lo hi =
        (mergeSort x, (tryAcquire τ lo hi).2.1, ([] : List Ev)) := by
      simp only [msBranch, hb, Bool.false_eq_true, if_false]
    rw [heq]
    refine ⟨(mergeSort_spec x).1, (mergeSort_spec x).2, ho, hc, ?_⟩
    rw [he]
    simp [relCount, okCount, List.countP_cons]

theorem prlMergeSortHelper_fork_eq (fuel : Nat) (arr : List Int) (depth : Nat)
    (σ : GateSt) (h1 : ¬ arr.length ≤ 1)
    (hdel : ¬ (depth ≤ 1 ∨ arr.length < getOptimalThreshold arr.length arr.length)) :
    prlMergeSortHelper (fuel + 1) arr depth σ =
      (merge (msFork1 fuel arr depth σ).1 (msFork2 fuel arr depth σ).1,
       (msFork2 fuel arr depth σ).2.1,
       Ev.call arr.length (getOptimalThreshold arr.length arr.length) ::
         (tryAcquire σ 0 ((arr.length / 2 : Nat) - 1 : Int)).2.2 ::
         ((msFork1 fuel arr depth σ).2.2 ++
           (tryAcquire (msFork1 fuel arr depth σ).2.1
             ((arr.length / 2 : Nat) : Int) ((arr.length : Int) - 1)).2.2 ::
           (msFork2 fuel arr depth σ).2.2)) := by
  simp only [prlMergeSortHelper, msFork1, msFork2, msBranch, if_neg h1, if_neg hdel]

/-- Specification of the sequentialized parallel merge scheduler: for every
depth budget, gate state and oracle the result is a sorted permutation of the
input, occupancy and capacity are restored, and releases pair with
successful acquisitions. -/
theorem prlMergeSortHelper_spec :
    ∀ (fuel : Nat) (arr : List Int) (depth : Nat) (σ : GateSt), arr.length ≤ fuel →
      (prlMergeSortHelper fuel arr depth σ).1.Perm arr ∧
      SortedK (fun v : Int => v) (prlMergeSortHelper fuel arr depth σ).1 ∧
      (prlMergeSortHelper fuel arr depth σ).2.1.occ = σ.occ ∧
      (prlMergeSortHelper fuel arr depth σ).2.1.cap = σ.cap ∧
      relCount (prlMergeSortHelper fuel arr depth σ).2.2 =
        okCount (prlMergeSortHelper fuel arr depth σ).2.2 := by
  intro fuel
  induction fuel with
  | zero =>
    intro arr depth σ hfuel
    have h0 : arr = [] := List.length_eq_zero.mp (by omega)
    subst h0
    exact ⟨List.Perm.refl _, List.Pairwise.nil, rfl, rfl, rfl⟩
  | succ fuel ih =>
    intro arr depth σ hfuel
    by_cases h1 : arr.length ≤ 1
    · have heq : prlMergeSortHelper (fuel + 1) arr depth σ = (arr, σ, []) := by
        simp only [prlMergeSortHelper, if_pos h1]
      rw [heq]
      exact ⟨List.Perm.refl _, sortedK_short _ arr h1, rfl, rfl, rfl⟩
    · by_cases hdel : depth ≤ 1 ∨ arr.length < getOptimalThreshold arr.length arr.length
      · have heq : prlMergeSortHelper (fuel + 1) arr depth σ =
            (mergeSort arr, σ,
              [Ev.call arr.length (getOptimalThreshold arr.length arr.length)]) := by
          simp only [prlMergeSortHelper, if_neg h1, if_pos hdel]
        rw [heq]
        refine ⟨(mergeSort_spec arr).1, (mergeSort_spec arr).2, rfl, rfl, ?_⟩
        simp [relCount, okCount, List.countP_cons]
      · rw [prlMergeSortHelper_fork_eq fuel arr depth σ h1 hdel]
        have hf2 : msFork2 fuel arr depth σ =
            msBranch fuel (arr.drop (arr.length / 2)) (depth / 2)
              (msFork1 fuel arr depth σ).2.1
              ((arr.length / 2 : Nat) : Int) ((arr.length : Int) - 1) := rfl
        have hf1 : msFork1 fuel arr depth σ =
            msBranch fuel (arr.take (arr.length / 2)) (depth / 2) σ 0
              ((arr.length / 2 : Nat) - 1 : Int) := rfl
        rw [hf2, hf1]
        have hB1 := msBranch_spec fuel (arr.take (arr.length / 2)) (depth / 2) σ
          0 ((arr.length / 2 : Nat) - 1 : Int)
          (by rw [List.length_take]; omega) ih
        rcases hB1 with ⟨B1p, B1s, B1occ, B1cap, B1cnt⟩
        have hB2 := msBranch_spec fuel (arr.drop (arr.length / 2)) (depth / 2)
          (msBranch fuel (arr.take (arr.length / 2)) (depth / 2) σ 0
            ((arr.length / 2 : Nat) - 1 : Int)).2.1
          ((arr.length / 2 : Nat) : Int) ((arr.length : Int) - 1)
          (by rw [List.length_drop]; omega) ih
        rcases hB2 with ⟨B2p, B2s, B2occ, B2cap, B2cnt⟩
        refine ⟨?_, mergeG_sorted _ _ _ B1s B2s, ?_, ?_, ?_⟩
        · refine (mergeG_perm _ _ _).trans ?_
          refine (B1p.append B2p).trans ?_
          rw [List.take_append_drop]
        · rw [B2occ, B1occ]
        · rw [B2cap, B1cap]
        · simp only [relCount, okCount, List.countP_cons, List.countP_append] at B1cnt B2cnt ⊢
          omega

theorem parallelMergeSort_eq (ncpu : Nat) (arr : List Int) (σ : GateSt) :
    (parallelMergeSort ncpu arr σ).1 = mergeSort arr := by
  have h := prlMergeSortHelper_spec arr.length arr ncpu σ (le_refl _)
  have hm := mergeSort_spec arr
  have hs1 : List.Sorted (fun a b : Int => a ≤ b) (parallelMergeSort ncpu arr σ).1 := h.2.1
  have hs2 : List.Sorted (fun a b : Int => a ≤ b) (mergeSort arr) := hm.2
  exact List.eq_of_perm_of_sorted (h.1.trans hm.1.symm) hs1 hs2

theorem parallelMergeSort_gate (ncpu : Nat) (arr : List Int) (σ : GateSt) :
    (parallelMergeSort ncpu arr σ).2.1.occ = σ.occ ∧
    (parallelMergeSort ncpu arr σ).2.1.cap = σ.cap ∧
    relCount (parallelMergeSort ncpu arr σ).2.2 =
      okCount (parallelMergeSort ncpu arr σ).2.2 := by
  have h := prlMergeSortHelper_spec arr.length arr ncpu σ (le_refl _)
  exact ⟨h.2.2.1, h.2.2.2.1, h.2.2.2.2⟩

/-- C1: for every input sequence S, quickSort(S) rearranges S into ascending
order (for all i < j, result[i] <= result[j]) with final contents a
permutation of S, and mergeSort(S) returns an ascending permutation of S. -/
theorem sequential_sorters_correct (S : List Int) :
    ((∀ i j : Nat, i < j → j < (quickSort S).length →
        getE (quickSort S) i ≤ getE (quickSort S) j) ∧
      (quickSort S).Perm S) ∧
    ((∀ i j : Nat, i < j → j < (mergeSort S).length →
        getE (mergeSort S) i ≤ getE (mergeSort S) j) ∧
      (mergeSort S).Perm S) := by
  rcases quickSort_spec S with ⟨qlen, _qframe, qperm, qsort⟩
  refine ⟨⟨?_, qperm⟩, ?_, (mergeSort_spec S).1⟩
  · intro i j hij hj
    rw [qlen] at hj
    exact qsort i j (by omega) hij (by omega)
  · intro i j hij hj
    exact sortedK_id_pairs (mergeSort S) (mergeSort_spec S).2 i j hij hj

theorem sequential_sorters_correct_witness :
    (getE (quickSort [5, 3, 8, 1, 9, 2]) 0 ≤ getE (quickSort [5, 3, 8, 1, 9, 2]) 1 ∧
      (quickSort [5, 3, 8, 1, 9, 2]).Perm [5, 3, 8, 1, 9, 2]) ∧
    (getE (mergeSort [5, 3, 8, 1, 9, 2]) 0 ≤ getE (mergeSort [5, 3, 8, 1, 9, 2]) 1 ∧
      (mergeSort [5, 3, 8, 1, 9, 2]).Perm [5, 3, 8, 1, 9, 2]) :=
  ⟨⟨(sequential_sorters_correct [5, 3, 8, 1, 9, 2]).1.1 0 1 (by decide) (by decide),
    (sequential_sorters_correct [5, 3, 8, 1, 9, 2]).1.2⟩,
   ⟨(sequential_sorters_correct [5, 3, 8, 1, 9, 2]).2.1 0 1 (by decide) (by decide),
    (sequential_sorters_correct [5, 3, 8, 1, 9, 2]).2.2⟩⟩

/-- C2: for every input, every CPU count, every gate state and every
acquisition oracle (covering all interleavings), the parallel sorters are
extensionally equal to the sequential ones: parallelQuickSort leaves exactly
the final contents of quickSort and parallelMergeSort returns exactly
mergeSort's result. -/
theorem parallel_equals_sequential (ncpu : Nat) (S : List Int) (σ : GateSt) :
    (parallelQuickSort ncpu S σ).1 = quickSort S ∧
    (parallelMergeSort ncpu S σ).1 = mergeSort S :=
  ⟨parallelQuickSort_eq ncpu S σ, parallelMergeSort_eq ncpu S σ⟩

/-- C3: gate balance: for every input, depth budget, gate state and oracle,
a complete parallel sort leaves the gate occupancy at its pre-call value and
its trace contains exactly one release per successful try-acquire (the
release is the deferred receive run on every exit of the acquiring task). -/
theorem gate_balance (ncpu : Nat) (S : List Int) (σ : GateSt) :
    ((parallelQuickSort ncpu S σ).2.1.occ = σ.occ ∧
      relCount (parallelQuickSort ncpu S σ).2.2 =
        okCount (parallelQuickSort ncpu S σ).2.2) ∧
    ((parallelMergeSort ncpu S σ).2.1.occ = σ.occ ∧
      relCount (parallelMergeSort ncpu S σ).2.2 =
        okCount (parallelMergeSort ncpu S σ).2.2) :=
  ⟨⟨(parallelQuickSort_gate ncpu S σ).1, (parallelQuickSort_gate ncpu S σ).2.2⟩,
   ⟨(parallelMergeSort_gate ncpu S σ).1, (parallelMergeSort_gate ncpu S σ).2.2⟩⟩

/-- C8: the threshold policy ignores its second argument and follows the
documented table: totalSize itself below 1000, then 300, 800, 1500 by
bracket. -/
theorem threshold_table (totalSize s1 s2 : Nat) :
    getOptimalThreshold totalSize s1 = getOptimalThreshold totalSize s2 ∧
    (totalSize < 1000 → getOptimalThreshold totalSize s1 = totalSize) ∧
    (1000 ≤ totalSize → totalSize < 10000 → getOptimalThreshold totalSize s1 = 300) ∧
    (10000 ≤ totalSize → totalSize < 100000 → getOptimalThreshold totalSize s1 = 800) ∧
    (100000 ≤ totalSize → getOptimalThreshold totalSize s1 = 1500) := by
  unfold getOptimalThreshold
  refine ⟨rfl, ?_, ?_, ?_, ?_⟩ <;> intros <;> split_ifs <;> omega

theorem threshold_table_witness :
    getOptimalThreshold 500 0 = 500 ∧ getOptimalThreshold 5000 1 = 300 ∧
    getOptimalThreshold 50000 2 = 800 ∧ getOptimalThreshold 500000 3 = 1500 :=
  ⟨(threshold_table 500 0 99).2.1 (by decide),
   (threshold_table 5000 1 99).2.2.1 (by decide) (by decide),
   (threshold_table 50000 2 99).2.2.2.1 (by decide) (by decide),
   (threshold_table 500000 3 99).2.2.2.2 (by decide)⟩

/-- C9: merge takes the left element first when the two heads are equal, and
consequently mergeSort on keyed records is stable: the output is a
permutation of the input in which each key class appears exactly in input
order. -/
theorem mergeSort_stable :
    (∀ (left right : List Int) (i j : Nat) (acc : List Int) (fuel : Nat),
      i < left.length → j < right.length → getE left i = getE right j →
      mergeLoopG (fun v : Int => v) (fuel + 1) left right i j acc =
        mergeLoopG (fun v : Int => v) fuel left right (i + 1) j (acc ++ [getE left i])) ∧
    (∀ S : List (Int × Int), (mergeSortKeyed S).Perm S ∧
      ∀ k : Int, (mergeSortKeyed S).filter (fun x => decide (x.1 = k)) =
        S.filter (fun x => decide (x.1 = k))) := by
  constructor
  · intro left right i j acc fuel hi hj heq
    have hcond : i < left.length ∧ j < right.length := ⟨hi, hj⟩
    have hle : (fun v : Int => v) (getE left i) ≤ (fun v : Int => v) (getE right j) :=
      le_of_eq heq
    simp only [mergeLoopG, if_pos hcond, if_pos hle]
  · intro S
    rcases mergeSortG_spec Prod.fst S.length S (le_refl _) with ⟨p, _s, f⟩
    exact ⟨p, fun k => f k⟩

theorem mergeSort_stable_witness :
    mergeLoopG (fun v : Int => v) 1 [7] [7] 0 0 [] =
      mergeLoopG (fun v : Int => v) 0 [7] [7] 1 0 ([] ++ [getE [7] 0]) ∧
    ((mergeSortKeyed [(1, 10), (1, 11), (0, 12)]).Perm [(1, 10), (1, 11), (0, 12)] ∧
      (mergeSortKeyed [(1, 10), (1, 11), (0, 12)]).filter (fun x => decide (x.1 = 1)) =
        [(1, 10), (1, 11), (0, 12)].filter (fun x => decide (x.1 = 1))) :=
  ⟨mergeSort_stable.1 [7] [7] 0 0 [] 0 (by decide) (by decide) (by decide),
   (mergeSort_stable.2 [(1, 10), (1, 11), (0, 12)]).1,
   (mergeSort_stable.2 [(1, 10), (1, 11), (0, 12)]).2 1⟩

/-- C10: frame property of the in-place sorters: on any valid range
0 <= low <= high < length, quickSortHelper, insertionSort, partition3Way and
medianOfThree (at indices within the range) preserve the length and every
element at an index outside [low, high]. -/
theorem inplace_frame (arr : List Int) (low high : Nat)
    (h1 : low ≤ high) (h2 : high < arr.length) :
    ((quickSortHelper arr low high).length = arr.length ∧
      ∀ k : Nat, k < low ∨ high < k →
        getE (quickSortHelper arr low high) k = getE arr k) ∧
    ((insertionSort arr low high).length = arr.length ∧
      ∀ k : Nat, k < low ∨ high < k →
        getE (insertionSort arr low high) k = getE arr k) ∧
    ((partition3Way arr low high).1.length = arr.length ∧
      ∀ k : Nat, k < low ∨ high < k →
        getE (partition3Way arr low high).1 k = getE arr k) ∧
    (∀ a b c : Nat, low ≤ a → a ≤ high → low ≤ b → b ≤ high → low ≤ c → c ≤ high →
      (medianOfThree arr a b c).length = arr.length ∧
      ∀ k : Nat, k < low ∨ high < k →
        getE (medianOfThree arr a b c) k = getE arr k) := by
  refine ⟨?_, ?_, ?_, ?_⟩
  · rcases quickSortHelper_spec arr low high (fun _ => h2) with ⟨hl, hf, _, _⟩
    exact ⟨hl, hf⟩
  · rcases insertionSortG_spec (fun v : Int => v) arr low high h2 with ⟨hl, hf, _, _, _⟩
    exact ⟨hl, hf⟩
  · rcases partition3Way_spec arr low high h1 h2 with ⟨hl, hf, _⟩
    exact ⟨hl, hf⟩
  · intro a b c ha1 ha2 hb1 hb2 hc1 hc2
    rcases medianOfThree_spec arr a b c (by omega) (by omega) (by omega)
      with ⟨hl, hf, _⟩
    refine ⟨hl, ?_⟩
    intro k hk
    exact hf k (by omega) (by omega) (by omega)

theorem inplace_frame_witness :
    (quickSortHelper [9, 3, 1, 7] 1 2).length = 4 ∧
    getE (quickSortHelper [9, 3, 1, 7] 1 2) 0 = 9 ∧
    getE (quickSortHelper [9, 3, 1, 7] 1 2) 3 = 7 ∧
    getE (insertionSort [9, 3, 1, 7] 1 2) 0 = 9 :=
  ⟨((inplace_frame [9, 3, 1, 7] 1 2 (by decide) (by decide)).1.1).trans (by decide),
   ((inplace_frame [9, 3, 1, 7] 1 2 (by decide) (by decide)).1.2 0
     (Or.inl (by decide))).trans (by decide),
   ((inplace_frame [9, 3, 1, 7] 1 2 (by decide) (by decide)).1.2 3
     (Or.inr (by decide))).trans (by decide),
   ((inplace_frame [9, 3, 1, 7] 1 2 (by decide) (by decide)).2.1.2 0
     (Or.inl (by decide))).trans (by decide)⟩

/-- C4, counterexample to the claim as stated: at the boundary s = threshold
(a 2-element input has threshold 2) with depth budget 2, the merge scheduler
does NOT delegate with zero gate acquisitions: it splits and attempts two
acquisitions, because its delegation test is the strict len < threshold. -/
theorem merge_boundary_forks :
    getOptimalThreshold 2 2 = 2 ∧
    ¬ acqCount (parallelMergeSort 2 [1, 0] ⟨0, 4, []⟩).2.2 = 0 := by
  constructor
  · decide
  · decide

/-- C4 as amended: the quicksort scheduler delegates the whole range to
quickSortHelper, with no partition and no gate acquisition attempt, exactly
when depth <= 1 or size <= threshold (boundary included), and otherwise
partitions and makes two acquisition attempts; the merge scheduler obeys the
same shape but with the strict test size < threshold, so at the boundary
size = threshold it splits and forks instead of delegating. -/
theorem delegation_rule :
    (∀ (fuel : Nat) (arr : List Int) (low high depth : Nat) (σ : GateSt),
      low < high →
      (depth ≤ 1 ∨ high - low + 1 ≤ getOptimalThreshold arr.length (high - low + 1)) →
      prlQuickSortHelper (fuel + 1) arr low high depth σ =
        (quickSortHelper arr low high, σ,
          [Ev.call (high - low + 1) (getOptimalThreshold arr.length (high - low + 1))])) ∧
    (∀ (fuel : Nat) (arr : List Int) (low high depth : Nat) (σ : GateSt),
      low < high →
      ¬ (depth ≤ 1 ∨ high - low + 1 ≤ getOptimalThreshold arr.length (high - low + 1)) →
      2 ≤ acqCount (prlQuickSortHelper (fuel + 1) arr low high depth σ).2.2) ∧
    (∀ (fuel : Nat) (arr : List Int) (depth : Nat) (σ : GateSt),
      2 ≤ arr.length →
      (depth ≤ 1 ∨ arr.length < getOptimalThreshold arr.length arr.length) →
      prlMergeSortHelper (fuel + 1) arr depth σ =
        (mergeSort arr, σ,
          [Ev.call arr.length (getOptimalThreshold arr.length arr.length)])) ∧
    (∀ (fuel : Nat) (arr : List Int) (depth : Nat) (σ : GateSt),
      2 ≤ arr.length →
      ¬ (depth ≤ 1 ∨ arr.length < getOptimalThreshold arr.length arr.length) →
      2 ≤ acqCount (prlMergeSortHelper (fuel + 1) arr depth σ).2.2) := by
  refine ⟨?_, ?_, ?_, ?_⟩
  · intro fuel arr low high depth σ hlh hdel
    simp only [prlQuickSortHelper, if_pos hlh, if_pos hdel]
  · intro fuel arr low high depth σ hlh hdel
    rw [prlQuickSortHelper_fork_eq fuel arr low high depth σ hlh hdel]
    rcases tryAcquire_cases σ (low : Int) (((partition3Way arr low high).2.1 : Int) - 1)
      with ⟨_, _, _, he1⟩ | ⟨_, _, _, he1⟩ <;>
      rcases tryAcquire_cases (qsFork1 fuel arr low high depth σ).2.1
          (((partition3Way arr low high).2.2 : Int) + 1) (high : Int)
        with ⟨_, _, _, he2⟩ | ⟨_, _, _, he2⟩ <;>
      simp only [acqCount, List.countP_cons, List.countP_append, he1, he2] <;>
      simp <;> omega
  · intro fuel arr depth σ hlen hdel
    simp only [prlMergeSortHelper, if_neg (by omega : ¬ arr.length ≤ 1), if_pos hdel]
  · intro fuel arr depth σ hlen hdel
    rw [prlMergeSortHelper_fork_eq fuel arr depth σ (by omega) hdel]
    rcases tryAcquire_cases σ 0 ((arr.length / 2 : Nat) - 1 : Int)
      with ⟨_, _, _, he1⟩ | ⟨_, _, _, he1⟩ <;>
      rcases tryAcquire_cases (msFork1 fuel arr depth σ).2.1
          ((arr.length / 2 : Nat) : Int) ((arr.length : Int) - 1)
        with ⟨_, _, _, he2⟩ | ⟨_, _, _, he2⟩ <;>
      simp only [acqCount, List.countP_cons, List.countP_append, he1, he2] <;>
      simp <;> omega

theorem delegation_rule_witness :
    prlQuickSortHelper 1 [2, 1] 0 1 1 ⟨0, 0, []⟩ =
      (quickSortHelper [2, 1] 0 1, ⟨0, 0, []⟩, [Ev.call 2 2]) ∧
    2 ≤ acqCount (prlQuickSortHelper 2 (List.replicate 1000 0) 0 301 2 ⟨0, 0, []⟩).2.2 ∧
    prlMergeSortHelper 1 [1, 0] 1 ⟨0, 0, []⟩ =
      (mergeSort [1, 0], ⟨0, 0, []⟩, [Ev.call 2 2]) ∧
    2 ≤ acqCount (prlMergeSortHelper 2 [1, 0] 2 ⟨0, 4, []⟩).2.2 :=
  ⟨delegation_rule.1 0 [2, 1] 0 1 1 ⟨0, 0, []⟩ (by decide) (by decide),
   delegation_rule.2.1 1 (List.replicate 1000 0) 0 301 2 ⟨0, 0, []⟩ (by decide) (by decide),
   delegation_rule.2.2.1 0 [1, 0] 1 ⟨0, 0, []⟩ (by decide) (by decide),
   delegation_rule.2.2.2 1 [1, 0] 2 ⟨0, 4, []⟩ (by decide) (by decide)⟩

/-- C5, evaluation at a failing input: within a single top-level
parallelMergeSort call on four elements (depth budget 2, capacity 2, an
oracle granting both slots), the scheduler's trace records threshold 4 at
the top level and threshold 2 at the recursive level: the merge scheduler
derives its threshold from the current half's length, not from the
top-level total size. -/
theorem merge_threshold_not_invariant :
    (parallelMergeSort 2 [0, 0, 0, 0] ⟨0, 2, [true, true]⟩).2.2 =
      [Ev.call 4 4, Ev.acqOk 0 1, Ev.call 2 2, Ev.rel,
        Ev.acqOk 2 3, Ev.call 2 2, Ev.rel] := by
  decide

/-- C6, evaluation of the failing path: whenever the underlying parallel
merge sort aborts abnormally (the fault model's some case), the safe wrapper
resets the gate occupancy to zero but returns nil (the Go zero value of the
unnamed result, produced by the recovered panic) instead of a sorted
sequence: the nil-check fallback in its body is unreachable on this path. -/
theorem safe_merge_wrapper_returns_nil (σP σ : GateSt) (ncpu : Nat) (arr : List Int) :
    safeParallelMergeSort (some σP) ncpu arr σ = (none, ⟨0, σP.cap, σP.oracle⟩) := rfl

/-- C7, counterexample to the claim as stated: on 1000 equal keys the
partition of [0, 301] leaves an empty left zone [0, -1] (size 0 <= 1), yet
the scheduler still attempts a gate acquisition for it (the recorded
acqFail 0 (-1)): there is no zone-size check before the attempt. -/
theorem empty_zone_acquire_attempt :
    (prlQuickSortHelper 2 (List.replicate 1000 0) 0 301 2 ⟨0, 0, []⟩).2.2 =
      [Ev.call 302 300, Ev.acqFail 0 (-1), Ev.acqFail 302 301] := by
  decide

/-- C7 as amended: at every fork step the quicksort scheduler attempts one
gate acquisition for the left zone [low, lt-1] and one for the right zone
[gt+1, high], regardless of the zones' sizes — zones of size <= 1 included. -/
theorem fork_attempts_both_zones :
    ∀ (fuel : Nat) (arr : List Int) (low high depth : Nat) (σ : GateSt),
      low < high →
      ¬ (depth ≤ 1 ∨ high - low + 1 ≤ getOptimalThreshold arr.length (high - low + 1)) →
      ∃ zs1 zs2 : List (Int × Int),
        attemptedZones (prlQuickSortHelper (fuel + 1) arr low high depth σ).2.2 =
          ((low : Int), ((partition3Way arr low high).2.1 : Int) - 1) :: (zs1 ++
            ((((partition3Way arr low high).2.2 : Int) + 1), (high : Int)) :: zs2) := by
  intro fuel arr low high depth σ hlh hdel
  rw [prlQuickSortHelper_fork_eq fuel arr low high depth σ hlh hdel]
  refine ⟨attemptedZones (qsFork1 fuel arr low high depth σ).2.2,
    attemptedZones (qsFork2 fuel arr low high depth σ).2.2, ?_⟩
  rcases tryAcquire_cases σ (low : Int) (((partition3Way arr low high).2.1 : Int) - 1)
    with ⟨_, _, _, he1⟩ | ⟨_, _, _, he1⟩ <;>
    rcases tryAcquire_cases (qsFork1 fuel arr low high depth σ).2.1
        (((partition3Way arr low high).2.2 : Int) + 1) (high : Int)
      with ⟨_, _, _, he2⟩ | ⟨_, _, _, he2⟩ <;>
    simp only [attemptedZones, List.filterMap_cons, List.filterMap_append, he1, he2]

theorem fork_attempts_both_zones_witness :
    ∃ zs1 zs2 : List (Int × Int),
      attemptedZones (prlQuickSortHelper (1 + 1) (List.replicate 1000 0) 0 301 2
          ⟨0, 0, []⟩).2.2 =
        ((0 : Int), ((partition3Way (List.replicate 1000 0) 0 301).2.1 : Int) - 1) :: (zs1 ++
          ((((partition3Way (List.replicate 1000 0) 0 301).2.2 : Int) + 1), (301 : Int)) :: zs2) :=
  fork_attempts_both_zones 1 (List.replicate 1000 0) 0 301 2 ⟨0, 0, []⟩
    (by decide) (by decide)

end Proofs

end SABench
